import Mathlib

/-!
Verification of the enceladus data-structure library.

This file shallowly embeds the parts of the library that the verified
claims are about:

* `src/hashmap.rs` — the separate-chaining `HashMap` (buckets, `num_keys`,
  insert / get / set / remove / clear / contains_key / size, the occupancy
  based `update` / `rehash` machinery and the `PartialEq` instance);
* `src/adjmat_graph.rs` — the `AdjMatGraph` (adjacency matrix, the three
  auxiliary hash maps, and the vertex/edge lifecycle operations);
* `src/bubblesort.rs` and `src/insertion_sort.rs` — the two sorting
  routines, generic over the `List` capability of `src/list.rs`.

Modelling conventions:

* Rust `panic!`-style aborts (index out of bounds, remainder by zero,
  `unwrap` of `None`/`Err`, and checked integer over/underflow as in debug
  builds) are modelled by `Option`: an operation that aborts evaluates to
  `none`; an operation that finishes evaluates to `some` of its result.
  Fallible operations return `Except EnceladusError` inside the `Option`,
  mirroring Rust `Result`.
* `usize`/`u64` arithmetic is `Nat` arithmetic checked against `2 ^ 64`
  (the build target is 64-bit); an increment or decrement that would leave
  `[0, 2^64)` is an abort, as in a debug build.
* The hashing performed by Rust's `DefaultHasher` is an unspecified
  function of the key, so every definition is parametrised by a digest
  function `h : K → Nat`; the bucket index is `h k % bucket count`, as in
  the source.  Concrete executions instantiate `h` with an explicit
  function.
* `load_factor` is stored in the Rust struct as an `f64` and is only read
  back inside `update`, in the comparison `occupied / len >= 0.75`.  The
  bucket count of every map the library ever builds is `64 * 2 ^ k`, for
  which the `f64` division is exact, so the comparison is modelled by the
  exact rational test `3 * len ≤ 4 * occupied`; the `len = 0` case
  (division yielding NaN, which compares false) is modelled separately.
* Rust's `HashSet` iteration order (used by `items` during a rehash) is
  unspecified; the model fixes the first-occurrence order over the bucket
  array.  No operation of the library can observe the difference: after a
  rehash every key occurs at most once, and `get`/`size`/`contains`/`==`
  are insensitive to the order within a bucket in that situation.
* The mutual recursion `insert → update → rehash → insert` is bounded by
  explicit fuel, consumed only when a `rehash` starts.  A rehash doubles
  the bucket count and can only fire while `3 * len ≤ 4 * d` where `d` is
  the (never increasing) number of distinct keys, so the number of nested
  rehashes is at most `log₂` of the entry count; the fuel
  `total entry count + 2` supplied at the public entry points is therefore
  sufficient for every execution, and none of the theorems below depend on
  the exact amount of slack.
-/

namespace Enceladus

/-- The error enumeration of `src/error.rs`. -/
inductive EnceladusError where
  | OutOfBounds
  | KeyNotFound
  | VertexNotFound
  | EdgeNotFound
deriving DecidableEq, Repr

instance {ε α : Type} [DecidableEq ε] [DecidableEq α] :
    DecidableEq (Except ε α) := fun a b =>
  match a, b with
  | .error e, .error f =>
    if h : e = f then .isTrue (by rw [h])
    else .isFalse (by intro hc; cases hc; exact h rfl)
  | .ok x, .ok y =>
    if h : x = y then .isTrue (by rw [h])
    else .isFalse (by intro hc; cases hc; exact h rfl)
  | .error _, .ok _ => .isFalse (by intro hc; cases hc)
  | .ok _, .error _ => .isFalse (by intro hc; cases hc)

/-- Exclusive upper bound of `u64`/`usize` values (64-bit target). -/
def U64MOD : Nat := 18446744073709551616

theorem U64MOD_eq : U64MOD = 2 ^ 64 := by decide

/-- Checked `u64`/`usize` addition: aborts (debug overflow) at `2 ^ 64`. -/
def u64Add (a b : Nat) : Option Nat :=
  if a + b < U64MOD then some (a + b) else none

/-- Checked `u64`/`usize` subtraction of one: aborts (debug underflow) below zero. -/
def u64Sub1 (a : Nat) : Option Nat :=
  if a = 0 then none else some (a - 1)

/-- Checked `u64`/`usize` increment. -/
def u64AddOne (a : Nat) : Option Nat :=
  u64Add a 1

/-- Checked `usize` multiplication, used for the bucket-count growth. -/
def u64Mul (a b : Nat) : Option Nat :=
  if a * b < U64MOD then some (a * b) else none

/-! ## The hash map of `src/hashmap.rs` -/

/-- `INIT_NUM_BUCKETS` from `src/hashmap.rs`. -/
def INIT_NUM_BUCKETS : Nat := 64

/-- `GROWTH_FACTOR` from `src/hashmap.rs`. -/
def GROWTH_FACTOR : Nat := 2

/-- The `HashMap` struct: a bucket vector of `(key, value)` chains and the
`num_keys` counter.  The stored `load_factor: f64` is omitted: it is written
by `update` and read back only inside `update` itself and by the
`load_factor()` accessor, which no claim touches; `update`'s comparison is
modelled exactly (see the header). -/
structure HashMap (K V : Type) where
  buckets : List (List (K × V))
  num_keys : Nat
deriving Repr

variable {K V : Type} [DecidableEq K] [DecidableEq V]

/-- `HashMap::new()`: `INIT_NUM_BUCKETS` empty chains, zero keys. -/
def hmNew : HashMap K V :=
  ⟨List.replicate INIT_NUM_BUCKETS [], 0⟩

/-- Number of stored entries (used only as a fuel bound, see header). -/
def totalEntries (s : HashMap K V) : Nat :=
  (s.buckets.map List.length).sum

/-- Number of non-empty buckets, as counted by `HashMap::update`. -/
def occupiedCount (s : HashMap K V) : Nat :=
  (s.buckets.filter (fun b => !b.isEmpty)).length

/-- All keys currently stored, in bucket order (the contents of the
`HashSet` built by `HashMap::get_keys`). -/
def keysList (s : HashMap K V) : List K :=
  s.buckets.flatten.map Prod.fst

/-- All values currently stored, in bucket order (the contents of the
`HashSet` built by `HashMap::get_values`). -/
def valuesList (s : HashMap K V) : List V :=
  s.buckets.flatten.map Prod.snd

/-- The key set built by `HashMap::get_keys` (a Rust `HashSet<K>`). -/
def keyFinset (s : HashMap K V) : Finset K :=
  (keysList s).toFinset

/-- The value set built by `HashMap::get_values` (a Rust `HashSet<V>`). -/
def valueFinset (s : HashMap K V) : Finset V :=
  (valuesList s).toFinset

/-- First value stored under `k` in chain `b` (the linear scan shared by
`get`/`get_mut`). -/
def chainFind (b : List (K × V)) (k : K) : Option V :=
  (b.find? (fun e => e.1 = k)).map Prod.snd

/-- `HashMap::get`: hash to a bucket (remainder by zero aborts when the
bucket vector is empty, as after `clear`), defensive bounds check, then a
linear scan of the chain. -/
def hmGet (h : K → Nat) (s : HashMap K V) (k : K) :
    Option (Except EnceladusError (Option V)) :=
  if s.buckets.length = 0 then none
  else
    let i := h k % s.buckets.length
    if s.buckets.length ≤ i then some (.error .OutOfBounds)
    else some (.ok (chainFind (s.buckets.getD i []) k))

/-- Replace the value of the first entry of chain `b` whose key is `k`
(`HashMap::set`'s scan); `none` when no entry matches. -/
def chainReplace (b : List (K × V)) (k : K) (v : V) : Option (List (K × V)) :=
  match b with
  | [] => none
  | e :: rest =>
    if e.1 = k then some ((k, v) :: rest)
    else (chainReplace rest k v).map (fun r => e :: r)

/-- `HashMap::set`: overwrite in place, `KeyNotFound` when the chain holds
no entry for the key.  `set` does not call `update`. -/
def hmSet (h : K → Nat) (s : HashMap K V) (k : K) (v : V) :
    Option (Except EnceladusError Unit × HashMap K V) :=
  if s.buckets.length = 0 then none
  else
    let i := h k % s.buckets.length
    if s.buckets.length ≤ i then some (.error .OutOfBounds, s)
    else
      match chainReplace (s.buckets.getD i []) k v with
      | some b2 => some (.ok (), ⟨s.buckets.set i b2, s.num_keys⟩)
      | none => some (.error .KeyNotFound, s)

/-- `HashMap::contains_key`: materialise the key set, membership test.
It never fails; the `Ok` wrapper of the source is kept. -/
def hmContains (s : HashMap K V) (k : K) : Except EnceladusError Bool :=
  .ok (decide (k ∈ keysList s))

/-- `HashMap::size`. -/
def hmSize (s : HashMap K V) : Except EnceladusError Nat :=
  .ok s.num_keys

/-- `HashMap::clear`: `Vec::clear` on the bucket vector, `num_keys = 0`.
The `update` it then runs sees a zero bucket count (NaN load factor) and
does nothing. -/
def hmClear (_s : HashMap K V) :
    Option (Except EnceladusError Unit × HashMap K V) :=
  some (.ok (), ⟨[], 0⟩)

/-- Distinct keys in first-occurrence order (the model's iteration order
for the `HashSet` produced by `get_keys`, see the header); `seen` carries
the keys already emitted. -/
def uniqueKeysAux (seen : List K) : List K → List K
  | [] => []
  | k :: rest =>
    if k ∈ seen then uniqueKeysAux seen rest
    else k :: uniqueKeysAux (k :: seen) rest

/-- Distinct keys in first-occurrence order. -/
def uniqueKeys (l : List K) : List K :=
  uniqueKeysAux [] l

/-- One step of `HashMap::items`: retrieve the (first) stored value of a
collected key; the `unwrap().unwrap()` aborts when `get` fails or finds
nothing. -/
def itemsStep (h : K → Nat) (s : HashMap K V) (k : K) : Option (K × V) :=
  match hmGet h s k with
  | some (.ok (some v)) => some (k, v)
  | _ => none

/-- `HashMap::items`: one `(key, first stored value)` pair per distinct
key. -/
def itemsOf (h : K → Nat) (s : HashMap K V) : Option (List (K × V)) :=
  (uniqueKeys (keysList s)).mapM (itemsStep h s)

/-- The state after `insert`'s unconditional append of a fresh entry and
the `num_keys` increment, before `update` runs. -/
def appendEntry (h : K → Nat) (s : HashMap K V) (k : K) (v : V) :
    HashMap K V :=
  let i := h k % s.buckets.length
  ⟨s.buckets.set i (s.buckets.getD i [] ++ [(k, v)]), s.num_keys + 1⟩

/-- The part of `HashMap::insert` before `update` runs: hash (remainder
by zero aborts on a cleared map), the defensive bounds check (its error is
returned to the caller — a failing reinsertion inside `rehash` is
`unwrap`ped there), the append of the fresh entry and the checked
`num_keys` increment. -/
def insertPre (h : K → Nat) (s : HashMap K V) (k : K) (v : V) :
    Option (Except EnceladusError (HashMap K V)) :=
  if s.buckets.length = 0 then none
  else if s.buckets.length ≤ h k % s.buckets.length then
    some (.error .OutOfBounds)
  else
    match u64Add s.num_keys 1 with
    | none => none
    | some _ => some (.ok (appendEntry h s k v))

/-- `HashMap::update` together with `HashMap::rehash` (fuelled, structural
in the fuel, which is consumed when a rehash starts): recompute the
occupancy fraction and rehash at `0.75` — a zero bucket count gives a NaN
load factor, which compares false.  The rehash doubles the bucket count
(checked), extracts `items`, and reinserts every pair through `insert`
(= `insertPre` followed by this very function), `unwrap`ping each result. -/
def updateF (h : K → Nat) (fuel : Nat) (s : HashMap K V) :
    Option (HashMap K V) :=
  if s.buckets.length = 0 then some s
  else if 3 * s.buckets.length ≤ 4 * occupiedCount s then
    match fuel with
    | 0 => none
    | fuel + 1 =>
      match u64Mul s.buckets.length GROWTH_FACTOR with
      | none => none
      | some newLen =>
        match itemsOf h s with
        | none => none
        | some items =>
          items.foldlM (fun st kv =>
            match insertPre h st kv.1 kv.2 with
            | some (.ok t) => updateF h fuel t
            | _ => none)
            (⟨List.replicate newLen [], s.num_keys⟩ : HashMap K V)
  else some s

/-- `HashMap::insert` (fuelled): `insertPre`, then `update`. -/
def insertF (h : K → Nat) (fuel : Nat) (s : HashMap K V) (k : K) (v : V) :
    Option (Except EnceladusError Unit × HashMap K V) :=
  match insertPre h s k v with
  | none => none
  | some (.error e) => some (.error e, s)
  | some (.ok t) =>
    match updateF h fuel t with
    | none => none
    | some t2 => some (.ok (), t2)

/-- `HashMap::insert` at the public entry point (sufficient fuel, see the
header). -/
def hmInsert (h : K → Nat) (s : HashMap K V) (k : K) (v : V) :
    Option (Except EnceladusError Unit × HashMap K V) :=
  insertF h (totalEntries s + 2) s k v

/-- Index of the first entry for `k` in chain `b` (`remove`'s
`iter().enumerate()` scan). -/
def chainIdx (b : List (K × V)) (k : K) : Option Nat :=
  b.findIdx? (fun e => e.1 = k)

/-- `HashMap::remove` (fuelled): find the first matching entry in the
bucket, `Vec::remove` it, decrement `num_keys` (checked), `update`;
`KeyNotFound` when the chain has no entry for the key. -/
def removeF (h : K → Nat) (fuel : Nat) (s : HashMap K V) (k : K) :
    Option (Except EnceladusError Unit × HashMap K V) :=
  if s.buckets.length = 0 then none
  else if s.buckets.length ≤ h k % s.buckets.length then
    some (.error .OutOfBounds, s)
  else
    match chainIdx (s.buckets.getD (h k % s.buckets.length) []) k with
    | none => some (.error .KeyNotFound, s)
    | some j =>
      match u64Sub1 s.num_keys with
      | none => none
      | some nk =>
        match updateF h fuel
          ⟨s.buckets.set (h k % s.buckets.length)
            ((s.buckets.getD (h k % s.buckets.length) []).eraseIdx j), nk⟩ with
        | none => none
        | some t => some (.ok (), t)

/-- `HashMap::remove` at the public entry point. -/
def hmRemove (h : K → Nat) (s : HashMap K V) (k : K) :
    Option (Except EnceladusError Unit × HashMap K V) :=
  removeF h (totalEntries s + 2) s k

/-- The `PartialEq` instance of `HashMap`: equal `num_keys`, equal bucket
counts, equal key sets and equal value sets. -/
def hmEq (s t : HashMap K V) : Bool :=
  s.num_keys = t.num_keys ∧ s.buckets.length = t.buckets.length ∧
    keyFinset s = keyFinset t ∧ valueFinset s = valueFinset t

/-! ## The adjacency-matrix graph of `src/adjmat_graph.rs`

`VertexNumber` and `EdgeNumber` are `usize` (`Nat` here).  All three
auxiliary hash maps are keyed by `usize`, so a single digest function
`hN : Nat → Nat` is threaded through.  Matrix cells are `u64`
multiplicities; their arithmetic is checked (see the header). -/

/-- The `AdjMatGraph` struct. -/
structure AdjMatGraph (V E : Type) where
  num_vertices : Nat
  num_edges : Nat
  adjacency_matrix : List (List Nat)
  endpoints : HashMap Nat (Nat × Nat)
  vertex_labels : HashMap Nat V
  edge_labels : HashMap Nat E

variable {VL EL : Type} [DecidableEq VL] [DecidableEq EL]

/-- `AdjMatGraph::new()`. -/
def gNew : AdjMatGraph VL EL :=
  ⟨0, 0, [], hmNew, hmNew, hmNew⟩

/-- Read matrix cell `[a][b]`; `none` is the index-out-of-bounds abort. -/
def matGet (m : List (List Nat)) (a b : Nat) : Option Nat :=
  match m[a]? with
  | none => none
  | some row => row[b]?

/-- Apply a checked mutation to matrix cell `[a][b]` (the
`self.adjacency_matrix[a][b] += 1` / `-= 1` statements); `none` is either
the indexing abort or the arithmetic abort inside `f`. -/
def matModify (m : List (List Nat)) (a b : Nat) (f : Nat → Option Nat) :
    Option (List (List Nat)) :=
  match m[a]? with
  | none => none
  | some row =>
    match row[b]? with
    | none => none
    | some c =>
      match f c with
      | none => none
      | some c2 => some (m.set a (row.set b c2))

/-- `AdjMatGraph::get_vertex`. -/
def gGetVertex (hN : Nat → Nat) (g : AdjMatGraph VL EL) (v : Nat) :
    Option (Except EnceladusError (Option VL)) :=
  hmGet hN g.vertex_labels v

/-- `AdjMatGraph::get_edge`. -/
def gGetEdge (hN : Nat → Nat) (g : AdjMatGraph VL EL) (e : Nat) :
    Option (Except EnceladusError (Option EL)) :=
  hmGet hN g.edge_labels e

/-- The column loop of `insert_vertex`: push a zero onto rows
`0 .. num_vertices`, indexing each row (abort when the row is missing).
`r` counts the remaining iterations, `i` is the current row index. -/
def pushColLoop : (r i : Nat) → List (List Nat) → Option (List (List Nat))
  | 0, _, m => some m
  | r + 1, i, m =>
    match m[i]? with
    | none => none
    | some row => pushColLoop r (i + 1) (m.set i (row ++ [0]))

/-- `AdjMatGraph::insert_vertex`: store the label under the next id
(`unwrap`ping the result), then grow the matrix — the `num_vertices = 0`
base case pushes a `[0]` row, otherwise a column is pushed onto every row
before the new zero row is appended; finally `num_vertices` is bumped
(checked) and the new id returned. -/
def gInsertVertex (hN : Nat → Nat) (g : AdjMatGraph VL EL) (label : VL) :
    Option (Except EnceladusError Nat × AdjMatGraph VL EL) :=
  match hmInsert hN g.vertex_labels g.num_vertices label with
  | some (.ok _, vl2) =>
    if g.num_vertices = 0 then
      match u64Add g.num_vertices 1 with
      | none => none
      | some n2 =>
        some (.ok (n2 - 1),
          { g with
            num_vertices := n2
            adjacency_matrix := g.adjacency_matrix ++ [[0]]
            vertex_labels := vl2 })
    else
      match pushColLoop g.num_vertices 0 g.adjacency_matrix with
      | none => none
      | some m2 =>
        match u64Add g.num_vertices 1 with
        | none => none
        | some n2 =>
          some (.ok (n2 - 1),
            { g with
              num_vertices := n2
              adjacency_matrix := m2 ++ [List.replicate (g.num_vertices + 1) 0]
              vertex_labels := vl2 })
  | _ => none

/-- `AdjMatGraph::insert_edge`: both endpoints must be present; the edge
label and endpoint pair are stored under the next edge id (each `?`
propagated), both matrix cells are incremented (checked, and the same cell
twice for a self-loop), `num_edges` is bumped (checked) and the new id
returned. -/
def gInsertEdge (hN : Nat → Nat) (g : AdjMatGraph VL EL) (label : EL)
    (a b : Nat) : Option (Except EnceladusError Nat × AdjMatGraph VL EL) :=
  match hmContains g.vertex_labels a with
  | .error e => some (.error e, g)
  | .ok ca =>
    if !ca then some (.error .VertexNotFound, g)
    else
      match hmContains g.vertex_labels b with
      | .error e => some (.error e, g)
      | .ok cb =>
        if !cb then some (.error .VertexNotFound, g)
        else
          match hmInsert hN g.edge_labels g.num_edges label with
          | none => none
          | some (.error e, el2) => some (.error e, { g with edge_labels := el2 })
          | some (.ok _, el2) =>
            match hmInsert hN g.endpoints g.num_edges (a, b) with
            | none => none
            | some (.error e, ep2) =>
              some (.error e, { g with edge_labels := el2, endpoints := ep2 })
            | some (.ok _, ep2) =>
              match matModify g.adjacency_matrix a b u64AddOne with
              | none => none
              | some m1 =>
                match matModify m1 b a u64AddOne with
                | none => none
                | some m2 =>
                  match u64Add g.num_edges 1 with
                  | none => none
                  | some ne =>
                    some (.ok (ne - 1),
                      { g with
                        num_edges := ne
                        adjacency_matrix := m2
                        edge_labels := el2
                        endpoints := ep2 })

/-- `AdjMatGraph::remove_edge`: the edge must be labelled; its label is
removed, the endpoint pair is read (`unwrap` of `None` aborts) and
removed, both matrix cells are decremented (checked) and `num_edges`
decremented (checked). -/
def gRemoveEdge (hN : Nat → Nat) (g : AdjMatGraph VL EL) (e : Nat) :
    Option (Except EnceladusError Unit × AdjMatGraph VL EL) :=
  match hmContains g.edge_labels e with
  | .error er => some (.error er, g)
  | .ok ce =>
    if !ce then some (.error .EdgeNotFound, g)
    else
      match hmRemove hN g.edge_labels e with
      | none => none
      | some (.error er, el2) => some (.error er, { g with edge_labels := el2 })
      | some (.ok _, el2) =>
        match hmGet hN g.endpoints e with
        | none => none
        | some (.error er) => some (.error er, { g with edge_labels := el2 })
        | some (.ok none) => none
        | some (.ok (some (a, b))) =>
          match hmRemove hN g.endpoints e with
          | none => none
          | some (.error er, ep2) =>
            some (.error er, { g with edge_labels := el2, endpoints := ep2 })
          | some (.ok _, ep2) =>
            match matModify g.adjacency_matrix a b u64Sub1 with
            | none => none
            | some m1 =>
              match matModify m1 b a u64Sub1 with
              | none => none
              | some m2 =>
                match u64Sub1 g.num_edges with
                | none => none
                | some ne =>
                  some (.ok (),
                    { g with
                      num_edges := ne
                      adjacency_matrix := m2
                      edge_labels := el2
                      endpoints := ep2 })

/-- The scan of `incident_edges`: for `i` in `0 .. num_edges`, read and
`unwrap` the endpoint pair of edge id `i` (`unwrap` of `None` aborts,
`?` propagates a `get` error), collecting the ids incident to `v`.
`r` counts remaining iterations. -/
def incLoop (hN : Nat → Nat) (eps : HashMap Nat (Nat × Nat)) (v : Nat) :
    (r i : Nat) → Option (Except EnceladusError (List Nat))
  | 0, _ => some (.ok [])
  | r + 1, i =>
    match hmGet hN eps i with
    | none => none
    | some (.error er) => some (.error er)
    | some (.ok none) => none
    | some (.ok (some (a, b))) =>
      match incLoop hN eps v r (i + 1) with
      | some (.ok rest) =>
        some (.ok (if v = a ∨ v = b then i :: rest else rest))
      | other => other

/-- `AdjMatGraph::incident_edges`. -/
def gIncidentEdges (hN : Nat → Nat) (g : AdjMatGraph VL EL) (v : Nat) :
    Option (Except EnceladusError (List Nat)) :=
  match hmContains g.vertex_labels v with
  | .error er => some (.error er)
  | .ok cv =>
    if !cv then some (.error .VertexNotFound)
    else incLoop hN g.endpoints v g.num_edges 0

/-- The edge-pruning loop of `remove_vertex`: `remove_edge` each listed
edge in turn, propagating the first error (`?`) and aborting on abort. -/
def removeEdgesLoop (hN : Nat → Nat) (g : AdjMatGraph VL EL) :
    List Nat → Option (Except EnceladusError Unit × AdjMatGraph VL EL)
  | [] => some (.ok (), g)
  | e :: es =>
    match gRemoveEdge hN g e with
    | none => none
    | some (.error er, g2) => some (.error er, g2)
    | some (.ok _, g2) => removeEdgesLoop hN g2 es

/-- The column-removal loop of `remove_vertex`: `Vec::remove(v)` on rows
`0 .. num_vertices - 1` (indexing a missing row or removing a
out-of-range column aborts). -/
def removeColLoop (v : Nat) :
    (r i : Nat) → List (List Nat) → Option (List (List Nat))
  | 0, _, m => some m
  | r + 1, i, m =>
    match m[i]? with
    | none => none
    | some row =>
      if v < row.length then removeColLoop v r (i + 1) (m.set i (row.eraseIdx v))
      else none

/-- `AdjMatGraph::remove_vertex`: absent vertices give `VertexNotFound`;
the sole-remaining-vertex base case resets only the matrix and the vertex
labels; otherwise all incident edges are pruned through `remove_edge`,
the label is removed (`?`), the matrix row is `Vec::remove`d (checked),
the column removed from every remaining row, and `num_vertices`
decremented (checked). -/
def gRemoveVertex (hN : Nat → Nat) (g : AdjMatGraph VL EL) (v : Nat) :
    Option (Except EnceladusError Unit × AdjMatGraph VL EL) :=
  match hmContains g.vertex_labels v with
  | .error er => some (.error er, g)
  | .ok cv =>
    if !cv then some (.error .VertexNotFound, g)
    else if g.num_vertices = 1 then
      some (.ok (),
        { g with
          adjacency_matrix := []
          vertex_labels := hmNew
          num_vertices := 0 })
    else
      match incLoop hN g.endpoints v g.num_edges 0 with
      | none => none
      | some (.error er) => some (.error er, g)
      | some (.ok incident) =>
        match removeEdgesLoop hN g incident with
        | none => none
        | some (.error er, g2) => some (.error er, g2)
        | some (.ok _, g2) =>
          match hmRemove hN g2.vertex_labels v with
          | none => none
          | some (.error er, vl2) =>
            some (.error er, { g2 with vertex_labels := vl2 })
          | some (.ok _, vl2) =>
            if v < g2.adjacency_matrix.length then
              match removeColLoop v (g2.num_vertices - 1) 0
                  (g2.adjacency_matrix.eraseIdx v) with
              | none => none
              | some m2 =>
                match u64Sub1 g2.num_vertices with
                | none => none
                | some n2 =>
                  some (.ok (),
                    { g2 with
                      vertex_labels := vl2
                      adjacency_matrix := m2
                      num_vertices := n2 })
            else none

/-- `AdjMatGraph::order`. -/
def gOrder (g : AdjMatGraph VL EL) : Except EnceladusError Nat :=
  .ok g.num_vertices

/-- `AdjMatGraph::size`. -/
def gSize (g : AdjMatGraph VL EL) : Except EnceladusError Nat :=
  .ok g.num_edges

/-- The summation loop of `degree`: checked `u64` sum of row `v` over
columns `0 .. num_vertices` (indexing aborts out of bounds). -/
def degLoop (m : List (List Nat)) (v : Nat) :
    (r i acc : Nat) → Option Nat
  | 0, _, acc => some acc
  | r + 1, i, acc =>
    match matGet m v i with
    | none => none
    | some c =>
      match u64Add acc c with
      | none => none
      | some acc2 => degLoop m v r (i + 1) acc2

/-- `AdjMatGraph::degree`. -/
def gDegree (g : AdjMatGraph VL EL) (v : Nat) :
    Option (Except EnceladusError Nat) :=
  match hmContains g.vertex_labels v with
  | .error er => some (.error er)
  | .ok cv =>
    if !cv then some (.error .VertexNotFound)
    else
      match degLoop g.adjacency_matrix v g.num_vertices 0 0 with
      | none => none
      | some d => some (.ok d)

/-- `AdjMatGraph::is_adjacent`: both vertices must be present; true iff
the matrix cell is positive (indexing aborts out of bounds). -/
def gIsAdjacent (g : AdjMatGraph VL EL) (a b : Nat) :
    Option (Except EnceladusError Bool) :=
  match hmContains g.vertex_labels a with
  | .error er => some (.error er)
  | .ok ca =>
    if !ca then some (.error .VertexNotFound)
    else
      match hmContains g.vertex_labels b with
      | .error er => some (.error er)
      | .ok cb =>
        if !cb then some (.error .VertexNotFound)
        else
          match matGet g.adjacency_matrix a b with
          | none => none
          | some c => some (.ok (decide (0 < c)))

/-- The scan of `neighbours`: columns `0 .. num_vertices` of row `v` with
a positive cell. -/
def nbrLoop (m : List (List Nat)) (v : Nat) :
    (r i : Nat) → Option (List Nat)
  | 0, _ => some []
  | r + 1, i =>
    match matGet m v i with
    | none => none
    | some c =>
      match nbrLoop m v r (i + 1) with
      | none => none
      | some rest => some (if 0 < c then i :: rest else rest)

/-- `AdjMatGraph::neighbours`. -/
def gNeighbours (g : AdjMatGraph VL EL) (v : Nat) :
    Option (Except EnceladusError (List Nat)) :=
  match hmContains g.vertex_labels v with
  | .error er => some (.error er)
  | .ok cv =>
    if !cv then some (.error .VertexNotFound)
    else
      match nbrLoop g.adjacency_matrix v g.num_vertices 0 with
      | none => none
      | some ns => some (.ok ns)

/-- `AdjMatGraph::endpoints`: the edge must be labelled; the stored pair
is read (`?`) and `unwrap`ped. -/
def gEndpoints (hN : Nat → Nat) (g : AdjMatGraph VL EL) (e : Nat) :
    Option (Except EnceladusError (Nat × Nat)) :=
  match hmContains g.edge_labels e with
  | .error er => some (.error er)
  | .ok ce =>
    if !ce then some (.error .EdgeNotFound)
    else
      match hmGet hN g.endpoints e with
      | none => none
      | some (.error er) => some (.error er)
      | some (.ok none) => none
      | some (.ok (some p)) => some (.ok p)

/-- `AdjMatGraph::clear`: clear all three maps (each `?`), the matrix and
the counters. -/
def gClear (g : AdjMatGraph VL EL) :
    Option (Except EnceladusError Unit × AdjMatGraph VL EL) :=
  match hmClear g.vertex_labels with
  | some (.ok _, vl2) =>
    match hmClear g.edge_labels with
    | some (.ok _, el2) =>
      match hmClear g.endpoints with
      | some (.ok _, ep2) =>
        some (.ok (), ⟨0, 0, [], ep2, vl2, el2⟩)
      | _ => none
    | _ => none
  | _ => none

/-! ## The sorting routines of `src/bubblesort.rs` and `src/insertion_sort.rs`

Both routines are generic over the `List` capability of `src/list.rs`.
The implementation they are used with, `ArrayList` (`src/arraylist.rs`), is
declared in `src/lib.rs` but its file is not part of the sources, so the
list operations are modelled from the spec. -/

section Sorts

variable {α : Type}

/-- Modelled from the spec: `ArrayList::get` of the `List` capability
(`src/arraylist.rs` is absent from the sources); positional read that
fails with a typed `OutOfBounds` error on an invalid index (§6). -/
def aGet (l : List α) (pos : Nat) : Except EnceladusError α :=
  if h : pos < l.length then .ok (l.get ⟨pos, h⟩) else .error .OutOfBounds

/-- Modelled from the spec: `ArrayList::set`; positional overwrite that
fails with `OutOfBounds` on an invalid index (§6). -/
def aSet (l : List α) (pos : Nat) (x : α) : Except EnceladusError (List α) :=
  if pos < l.length then .ok (l.set pos x) else .error .OutOfBounds

/-- Modelled from the spec: `ArrayList::swap`; exchanges two positions,
failing with `OutOfBounds` when either index is invalid (§6). -/
def aSwap (l : List α) (a b : Nat) : Except EnceladusError (List α) :=
  if ha : a < l.length then
    if hb : b < l.length then
      .ok ((l.set a (l.get ⟨b, hb⟩)).set b (l.get ⟨a, ha⟩))
    else .error .OutOfBounds
  else .error .OutOfBounds

/-- Modelled from the spec: `ArrayList::length`; always succeeds. -/
def aLength (l : List α) : Except EnceladusError Nat :=
  .ok l.length

/-- The inner loop of `bubblesort`: `for j in (i+1..n).rev()`, comparing
`cmp(list[j], list[i])` and swapping on true.  `k` counts the remaining
iterations, so the current index is `j = i + k`. -/
def bubbleInner (cmp : α → α → Bool) (i : Nat) :
    Nat → List α → Except EnceladusError (List α)
  | 0, l => .ok l
  | k + 1, l => do
    let x ← aGet l (i + k + 1)
    let y ← aGet l i
    let l2 ← if cmp x y then aSwap l i (i + k + 1) else pure l
    bubbleInner cmp i k l2

/-- The outer loop of `bubblesort`: `for i in 0..n`, with `d = n - i`
counting the remaining iterations (so `d = 0` is loop exit). -/
def bubbleOuter (cmp : α → α → Bool) (n : Nat) :
    (d i : Nat) → List α → Except EnceladusError (List α)
  | 0, _, l => .ok l
  | d + 1, i, l => do
    let l2 ← bubbleInner cmp i (n - 1 - i) l
    bubbleOuter cmp n d (i + 1) l2

/-- `bubblesort` from `src/bubblesort.rs`: early return on length ≤ 1,
then the double loop. -/
def bubblesort (cmp : α → α → Bool) (l : List α) :
    Except EnceladusError (List α) := do
  let n0 ← aLength l
  if n0 ≤ 1 then .ok l
  else do
    let n ← aLength l
    bubbleOuter cmp n n 0 l

/-- The shifting loop of `insertion_sort` for one key: the state is
`q = i + 1` where `i` is the source's signed cursor, so `q = 0` is loop
exit at the front; while `cmp(key, list[q-1])` holds the predecessor is
copied one slot right, and on exit the key is stored at `q`.  The
`usize → isize` conversion of the source cannot fail for any list that
fits in memory and is not modelled. -/
def insInner (cmp : α → α → Bool) (key : α) :
    Nat → List α → Except EnceladusError (List α)
  | 0, l => aSet l 0 key
  | q + 1, l => do
    let c ← aGet l q
    if cmp key c then do
      let l2 ← aSet l (q + 1) c
      insInner cmp key q l2
    else aSet l (q + 1) key

/-- The outer loop of `insertion_sort`: `for j in 1..n`, reading the key
at `j` and inserting it into the sorted slice on its left; `d = n - j`
counts the remaining iterations. -/
def insOuter (cmp : α → α → Bool) (n : Nat) :
    (d j : Nat) → List α → Except EnceladusError (List α)
  | 0, _, l => .ok l
  | d + 1, j, l => do
    let key ← aGet l j
    let l2 ← insInner cmp key j l
    insOuter cmp n d (j + 1) l2

/-- `insertion_sort` from `src/insertion_sort.rs`: early return on
length ≤ 1, then the shifting loops starting at `j = 1`. -/
def insertion_sort (cmp : α → α → Bool) (l : List α) :
    Except EnceladusError (List α) := do
  let n0 ← aLength l
  if n0 ≤ 1 then .ok l
  else do
    let n ← aLength l
    insOuter cmp n (n - 1) 1 l

end Sorts

/-! ## Reachable graph states -/

/-- Graph states reachable from `AdjMatGraph::new()` by any sequence of
`insert_vertex`, `remove_vertex`, `insert_edge`, `remove_edge` and
`clear` calls that complete (normally or with an error; an aborted call
has no resulting state). -/
inductive GReach {VL EL : Type} [DecidableEq VL] [DecidableEq EL]
    (hN : Nat → Nat) : AdjMatGraph VL EL → Prop where
  | new : GReach hN gNew
  | insert_vertex {g r g2} (label : VL) : GReach hN g →
      gInsertVertex hN g label = some (r, g2) → GReach hN g2
  | remove_vertex {g r g2} (v : Nat) : GReach hN g →
      gRemoveVertex hN g v = some (r, g2) → GReach hN g2
  | insert_edge {g r g2} (label : EL) (a b : Nat) : GReach hN g →
      gInsertEdge hN g label a b = some (r, g2) → GReach hN g2
  | remove_edge {g r g2} (e : Nat) : GReach hN g →
      gRemoveEdge hN g e = some (r, g2) → GReach hN g2
  | clear {g r g2} : GReach hN g →
      gClear g = some (r, g2) → GReach hN g2

/-- The adjacency matrix is square with dimension `num_vertices`. -/
def MatSquare (g : AdjMatGraph VL EL) : Prop :=
  g.adjacency_matrix.length = g.num_vertices ∧
    ∀ row ∈ g.adjacency_matrix, row.length = g.num_vertices

/-- The adjacency matrix is symmetric. -/
def MatSymm (g : AdjMatGraph VL EL) : Prop :=
  ∀ a b, a < g.num_vertices → b < g.num_vertices →
    matGet g.adjacency_matrix a b = matGet g.adjacency_matrix b a

/-! ## Basic lemmas about the hash map -/

theorem chainFind_eq_none {b : List (K × V)} {k : K}
    (hb : ∀ e ∈ b, e.1 ≠ k) : chainFind b k = none := by
  have : List.find? (fun e => decide (e.1 = k)) b = none :=
    List.find?_eq_none.2 (by intro x hx; simpa using hb x hx)
  simp [chainFind, this]

theorem chainFind_cons_self {e : K × V} {t : List (K × V)} {k : K}
    (hek : e.1 = k) : chainFind (e :: t) k = some e.2 := by
  unfold chainFind
  rw [List.find?_cons]
  have hd : decide (e.1 = k) = true := by simpa using hek
  rw [hd]
  rfl

theorem chainFind_cons_ne {e : K × V} {t : List (K × V)} {k : K}
    (hek : e.1 ≠ k) : chainFind (e :: t) k = chainFind t k := by
  unfold chainFind
  rw [List.find?_cons]
  have hd : decide (e.1 = k) = false := by simpa using hek
  rw [hd]

theorem mem_keysList_of_mem_bucket {s : HashMap K V} {i : Nat} {e : K × V}
    (he : e ∈ s.buckets.getD i []) : e.1 ∈ keysList s := by
  rcases Nat.lt_or_ge i s.buckets.length with hi | hi
  · rw [List.getD_eq_getElem _ _ hi] at he
    exact List.mem_map.2 ⟨e, List.mem_flatten.2 ⟨_, List.getElem_mem hi, he⟩, rfl⟩
  · rw [List.getD_eq_getElem?_getD, List.getElem?_eq_none hi] at he
    simp at he

theorem hmGet_absent (h : K → Nat) {s : HashMap K V} {k : K}
    (hlen : 0 < s.buckets.length) (hk : k ∉ keysList s) :
    hmGet h s k = some (.ok none) := by
  have hidx : h k % s.buckets.length < s.buckets.length := Nat.mod_lt _ hlen
  have hcf : chainFind (s.buckets.getD (h k % s.buckets.length) []) k = none :=
    chainFind_eq_none (fun e he hek => hk (hek ▸ mem_keysList_of_mem_bucket he))
  rw [List.getD_eq_getElem?_getD] at hcf
  simp [hmGet, Nat.pos_iff_ne_zero.1 hlen, Nat.not_le.2 hidx, hcf]

theorem hmContains_eq_false {s : HashMap K V} {k : K}
    (hk : k ∉ keysList s) : hmContains s k = .ok false := by
  simp [hmContains, hk]

theorem hmContains_eq_true {s : HashMap K V} {k : K}
    (hk : k ∈ keysList s) : hmContains s k = .ok true := by
  simp [hmContains, hk]

/-! ## Shared concrete executions

`hid` is the digest function used by all concrete runs; `embB`/`embP` are
empty bucket vectors of the initial size. -/

def hid : Nat → Nat := fun k => k

def embB : List (List (Nat × Nat)) := List.replicate 64 []

def embP : List (List (Nat × (Nat × Nat))) := List.replicate 64 []

/-- The graph after `insert_vertex(7)` on a fresh graph. -/
def cg1 : AdjMatGraph Nat Nat :=
  ⟨1, 0, [[0]], hmNew, ⟨embB.set 0 [(0, 7)], 1⟩, hmNew⟩

/-- `cg1` after `insert_vertex(8)`. -/
def cg2 : AdjMatGraph Nat Nat :=
  ⟨2, 0, [[0, 0], [0, 0]], hmNew, ⟨(embB.set 0 [(0, 7)]).set 1 [(1, 8)], 2⟩, hmNew⟩

/-- `cg2` after `insert_edge(3, 0, 1)`. -/
def cg3 : AdjMatGraph Nat Nat :=
  ⟨2, 1, [[0, 1], [1, 0]], ⟨embP.set 0 [(0, (0, 1))], 1⟩,
    ⟨(embB.set 0 [(0, 7)]).set 1 [(1, 8)], 2⟩, ⟨embB.set 0 [(0, 3)], 1⟩⟩

/-- `cg3` after `insert_edge(4, 0, 1)`. -/
def cg4 : AdjMatGraph Nat Nat :=
  ⟨2, 2, [[0, 2], [2, 0]], ⟨(embP.set 0 [(0, (0, 1))]).set 1 [(1, (0, 1))], 2⟩,
    ⟨(embB.set 0 [(0, 7)]).set 1 [(1, 8)], 2⟩,
    ⟨(embB.set 0 [(0, 3)]).set 1 [(1, 4)], 2⟩⟩

/-- `cg4` after `remove_edge(0)`: edge id `1` survives while `num_edges`
drops to `1`, so the edge-id range scanned by `incident_edges` no longer
matches the stored ids. -/
def cg5 : AdjMatGraph Nat Nat :=
  ⟨2, 1, [[0, 1], [1, 0]], ⟨embP.set 1 [(1, (0, 1))], 1⟩,
    ⟨(embB.set 0 [(0, 7)]).set 1 [(1, 8)], 2⟩, ⟨embB.set 1 [(1, 4)], 1⟩⟩

/-- The hash map after `insert(0, 5)` on a fresh map, then `clear()`:
the bucket vector is empty. -/
def cmCleared : HashMap Nat Nat := ⟨[], 0⟩

/-! ## C1 -/

/-- C1: the claim that every operation on a reachable state either
completes or returns an `EnceladusError` is violated by the code: after
`HashMap::clear` the bucket vector is empty and `get`/`insert`/`set`/
`remove` all abort with a remainder-by-zero panic when deriving the bucket
index, and after `remove_edge` has made the edge-id range non-contiguous,
`incident_edges` on a present vertex aborts by `unwrap`ping the `None`
endpoint entry of a removed edge id.  Both failing executions are traced
from `new()` below; `none` is the abort. -/
theorem c1_operations_abort_after_clear_and_remove_edge :
    (hmInsert hid (hmNew : HashMap Nat Nat) 0 5 =
      some (.ok (), ⟨embB.set 0 [(0, 5)], 1⟩)) ∧
    (hmClear (⟨embB.set 0 [(0, 5)], 1⟩ : HashMap Nat Nat) =
      some (.ok (), cmCleared)) ∧
    hmGet hid cmCleared 0 = none ∧
    hmInsert hid cmCleared 1 2 = none ∧
    hmSet hid cmCleared 0 9 = none ∧
    hmRemove hid cmCleared 0 = none ∧
    (gInsertVertex hid (gNew : AdjMatGraph Nat Nat) 7 = some (.ok 0, cg1)) ∧
    (gInsertVertex hid cg1 8 = some (.ok 1, cg2)) ∧
    (gInsertEdge hid cg2 3 0 1 = some (.ok 0, cg3)) ∧
    (gInsertEdge hid cg3 4 0 1 = some (.ok 1, cg4)) ∧
    (gRemoveEdge hid cg4 0 = some (.ok (), cg5)) ∧
    gIncidentEdges hid cg5 0 = none := by
  exact ⟨rfl, rfl, rfl, rfl, rfl, rfl, rfl, rfl, rfl, rfl, rfl, rfl⟩

/-! ## C7 -/

/-- The single-vertex graph `cg1` after `insert_edge(5, 0, 0)`, a
self-loop on the sole vertex. -/
def cg1Loop : AdjMatGraph Nat Nat :=
  ⟨1, 1, [[2]], ⟨embP.set 0 [(0, (0, 0))], 1⟩, ⟨embB.set 0 [(0, 7)], 1⟩,
    ⟨embB.set 0 [(0, 5)], 1⟩⟩

/-- `cg1Loop` after `remove_vertex(0)`: the sole-remaining-vertex base
case resets the matrix and the vertex labels but touches neither the edge
store nor `num_edges`. -/
def cg1LoopRemoved : AdjMatGraph Nat Nat :=
  ⟨0, 1, [], ⟨embP.set 0 [(0, (0, 0))], 1⟩, hmNew, ⟨embB.set 0 [(0, 5)], 1⟩⟩

/-- C7: the claim that `remove_vertex` first removes every incident edge
(leaving no endpoint entry referencing the vertex and an edge count equal
to the non-incident edges) fails on the code: removing the sole remaining
vertex, which carries a self-loop, takes the `num_vertices == 1` base case
that skips the edge pruning entirely — afterwards `num_edges` is still `1`
(not `0`) and the endpoint store still maps edge `0` to the removed vertex
`(0, 0)`. -/
theorem c7_remove_sole_vertex_keeps_self_loop :
    (gInsertVertex hid (gNew : AdjMatGraph Nat Nat) 7 = some (.ok 0, cg1)) ∧
    (gInsertEdge hid cg1 5 0 0 = some (.ok 0, cg1Loop)) ∧
    (gRemoveVertex hid cg1Loop 0 = some (.ok (), cg1LoopRemoved)) ∧
    cg1LoopRemoved.num_edges = 1 ∧
    hmGet hid cg1LoopRemoved.endpoints 0 = some (.ok (some (0, 0))) ∧
    keysList cg1LoopRemoved.edge_labels = [0] := by
  exact ⟨rfl, rfl, rfl, rfl, rfl, rfl⟩

/-! ## C10 -/

/-- C10: `get_vertex` and `get_edge` on absent ids succeed with "absent"
(`Ok(None)`), while the structural queries (`degree`, `is_adjacent`,
`neighbours`, `incident_edges`, `endpoints`) return the corresponding
not-found error on absent ids.  The label maps must have a non-zero bucket
count (true of every state the library builds except after `clear`, whose
abort is C1's subject). -/
theorem c10_absent_id_queries (hN : Nat → Nat) (g : AdjMatGraph VL EL)
    (v e b : Nat)
    (hv : 0 < g.vertex_labels.buckets.length)
    (he : 0 < g.edge_labels.buckets.length)
    (hvab : v ∉ keysList g.vertex_labels)
    (heab : e ∉ keysList g.edge_labels) :
    gGetVertex hN g v = some (.ok none) ∧
    gGetEdge hN g e = some (.ok none) ∧
    gDegree g v = some (.error .VertexNotFound) ∧
    gIsAdjacent g v b = some (.error .VertexNotFound) ∧
    gNeighbours g v = some (.error .VertexNotFound) ∧
    gIncidentEdges hN g v = some (.error .VertexNotFound) ∧
    gEndpoints hN g e = some (.error .EdgeNotFound) := by
  refine ⟨hmGet_absent hN hv hvab, hmGet_absent hN he heab, ?_, ?_, ?_, ?_, ?_⟩
  · simp [gDegree, hmContains_eq_false hvab]
  · simp [gIsAdjacent, hmContains_eq_false hvab]
  · simp [gNeighbours, hmContains_eq_false hvab]
  · simp [gIncidentEdges, hmContains_eq_false hvab]
  · simp [gEndpoints, hmContains_eq_false heab]

/-- Witness for C10 at a concrete graph: the one-vertex graph `cg1` with
absent vertex id `5` and absent edge id `5`. -/
theorem c10_absent_id_queries_witness :
    gGetVertex hid cg1 5 = some (.ok none) ∧
    gGetEdge hid cg1 5 = some (.ok none) ∧
    gDegree cg1 5 = some (.error .VertexNotFound) ∧
    gIsAdjacent cg1 5 0 = some (.error .VertexNotFound) ∧
    gNeighbours cg1 5 = some (.error .VertexNotFound) ∧
    gIncidentEdges hid cg1 5 = some (.error .VertexNotFound) ∧
    gEndpoints hid cg1 5 = some (.error .EdgeNotFound) :=
  c10_absent_id_queries hid cg1 5 5 0 (by decide) (by decide) (by decide)
    (by decide)

/-! ## C5 -/

/-- An empty map with a doubled bucket vector (as a rehash leaves behind):
same key set, same value set and same `num_keys` as `hmNew`, but a
different bucket count. -/
def cm128 : HashMap Nat Nat := ⟨List.replicate 128 [], 0⟩

/-- Counterexample to C5 as stated: two maps with identical key sets and
identical value sets (both empty) that the `PartialEq` implementation
nevertheless distinguishes, because it first compares bucket counts. -/
theorem c5_counterexample_bucket_count :
    keyFinset (hmNew : HashMap Nat Nat) = keyFinset cm128 ∧
    valueFinset (hmNew : HashMap Nat Nat) = valueFinset cm128 ∧
    hmEq (hmNew : HashMap Nat Nat) cm128 = false := by
  exact ⟨by decide, by decide, by decide⟩

/-- C5 amended: two maps are equal under the `PartialEq` implementation
iff they agree on `num_keys`, agree on the bucket count, and hold
identical key sets and identical value sets (key-to-value pairing is
still not compared). -/
theorem c5_hashmap_eq_iff (s t : HashMap K V) :
    hmEq s t = true ↔
      s.num_keys = t.num_keys ∧ s.buckets.length = t.buckets.length ∧
      (∀ k, k ∈ keysList s ↔ k ∈ keysList t) ∧
      (∀ v, v ∈ valuesList s ↔ v ∈ valuesList t) := by
  unfold hmEq
  rw [decide_eq_true_iff]
  constructor
  · rintro ⟨h1, h2, h3, h4⟩
    refine ⟨h1, h2, ?_, ?_⟩
    · intro k
      have := Finset.ext_iff.1 h3 k
      simpa [keyFinset, List.mem_toFinset] using this
    · intro v
      have := Finset.ext_iff.1 h4 v
      simpa [valueFinset, List.mem_toFinset] using this
  · rintro ⟨h1, h2, h3, h4⟩
    refine ⟨h1, h2, ?_, ?_⟩
    · exact Finset.ext_iff.2 (fun k => by
        simpa [keyFinset, List.mem_toFinset] using h3 k)
    · exact Finset.ext_iff.2 (fun v => by
        simpa [valueFinset, List.mem_toFinset] using h4 v)

/-! ## C4 -/

/-- Bucket-placement invariant: every stored entry sits in the bucket its
key hashes to.  Every operation of the library preserves it (entries are
only created by `insert`/`rehash`, which place them at
`hash % bucket count`); it is stated explicitly because the claims
quantify over map states. -/
def WFplacement (h : K → Nat) (s : HashMap K V) : Prop :=
  ∀ i, i < s.buckets.length → ∀ e ∈ s.buckets.getD i [],
    h e.1 % s.buckets.length = i

instance (h : K → Nat) (s : HashMap K V) : Decidable (WFplacement h s) := by
  unfold WFplacement
  infer_instance

theorem chainReplace_eq_none {b : List (K × V)} {k : K} {v : V}
    (hb : ∀ e ∈ b, e.1 ≠ k) : chainReplace b k v = none := by
  induction b with
  | nil => rfl
  | cons e rest ih =>
    have hek : e.1 ≠ k := hb e (List.mem_cons_self ..)
    simp only [chainReplace, if_neg hek]
    rw [ih (fun x hx => hb x (List.mem_cons_of_mem _ hx))]
    rfl

theorem chainReplace_present {b : List (K × V)} {k : K} (v : V)
    (hb : ∃ e ∈ b, e.1 = k) :
    ∃ b2, chainReplace b k v = some b2 ∧ chainFind b2 k = some v ∧
      b2.length = b.length := by
  induction b with
  | nil => simp at hb
  | cons e rest ih =>
    by_cases hek : e.1 = k
    · refine ⟨(k, v) :: rest, ?_, ?_, by simp⟩
      · simp [chainReplace, hek]
      · simp [chainFind]
    · obtain ⟨x, hx, hxk⟩ := hb
      rcases List.mem_cons.1 hx with h1 | h1
      · exact absurd (h1 ▸ hxk) hek
      · obtain ⟨b2, hb2, hfind, hlen⟩ := ih ⟨x, h1, hxk⟩
        refine ⟨e :: b2, ?_, ?_, by simp [hlen]⟩
        · simp [chainReplace, hek, hb2]
        · simp only [chainFind, List.find?_cons, decide_eq_true_eq, hek,
            if_neg hek]
          simpa [chainFind] using hfind

theorem mem_bucket_of_mem_keysList {h : K → Nat} {s : HashMap K V} {k : K}
    (hwf : WFplacement h s) (hk : k ∈ keysList s) :
    ∃ e ∈ s.buckets.getD (h k % s.buckets.length) [], e.1 = k := by
  obtain ⟨e, he, rfl⟩ := List.mem_map.1 hk
  obtain ⟨b, hb, heb⟩ := List.mem_flatten.1 he
  obtain ⟨i, hi, rfl⟩ := List.mem_iff_getElem.1 hb
  have hgd : s.buckets.getD i [] = s.buckets[i] := List.getD_eq_getElem _ _ hi
  have := hwf i hi e (by rw [hgd]; exact heb)
  rw [this]
  exact ⟨e, by rw [hgd]; exact heb, rfl⟩

/-- C4: on a map whose bucket vector is non-empty, `set` on an absent key
returns `KeyNotFound` and stores nothing, `remove` on an absent key
returns `KeyNotFound` and leaves the map unchanged, and `set` on a stored
key (under the bucket-placement invariant every library-built state
satisfies) succeeds and overwrites the value in place: the subsequent
`get` sees the new value and neither `num_keys` nor the bucket count
changes. -/
theorem c4_set_remove_semantics (h : K → Nat) (s : HashMap K V) (k : K)
    (v : V) (hlen : 0 < s.buckets.length) :
    (k ∉ keysList s → hmSet h s k v = some (.error .KeyNotFound, s)) ∧
    (k ∉ keysList s → hmRemove h s k = some (.error .KeyNotFound, s)) ∧
    (WFplacement h s → k ∈ keysList s →
      ∃ s2, hmSet h s k v = some (.ok (), s2) ∧
        hmGet h s2 k = some (.ok (some v)) ∧
        s2.num_keys = s.num_keys ∧
        s2.buckets.length = s.buckets.length) := by
  have hidx : h k % s.buckets.length < s.buckets.length := Nat.mod_lt _ hlen
  refine ⟨fun hab => ?_, fun hab => ?_, fun hwf hmem => ?_⟩
  · have hcr : chainReplace (s.buckets.getD (h k % s.buckets.length) []) k v
        = none :=
      chainReplace_eq_none
        (fun e he hek => hab (hek ▸ mem_keysList_of_mem_bucket he))
    rw [List.getD_eq_getElem?_getD] at hcr
    simp [hmSet, Nat.pos_iff_ne_zero.1 hlen, Nat.not_le.2 hidx, hcr]
  · have hci : chainIdx (s.buckets.getD (h k % s.buckets.length) []) k
        = none := by
      refine List.findIdx?_eq_none_iff.2 (fun e he => ?_)
      have : e.1 ≠ k := fun hek => hab (hek ▸ mem_keysList_of_mem_bucket he)
      simpa using this
    rw [List.getD_eq_getElem?_getD] at hci
    simp [hmRemove, removeF, Nat.pos_iff_ne_zero.1 hlen, Nat.not_le.2 hidx,
      hci]
  · obtain ⟨b2, hb2, hfind, hblen⟩ :=
      chainReplace_present v (mem_bucket_of_mem_keysList hwf hmem)
    refine ⟨⟨s.buckets.set (h k % s.buckets.length) b2, s.num_keys⟩, ?_, ?_,
      rfl, by simp⟩
    · rw [List.getD_eq_getElem?_getD] at hb2
      simp [hmSet, Nat.pos_iff_ne_zero.1 hlen, Nat.not_le.2 hidx, hb2]
    · have hgd : (s.buckets.set (h k % s.buckets.length) b2).getD
          (h k % s.buckets.length) [] = b2 := by
        rw [List.getD_eq_getElem _ _ (by simpa using hidx)]
        simp
      rw [List.getD_eq_getElem?_getD] at hgd
      simp [hmGet, Nat.pos_iff_ne_zero.1 hlen, Nat.not_le.2 hidx, hgd, hfind]

/-- A concrete one-entry map (key `3`, value `9`) for the C4 witness. -/
def cm1 : HashMap Nat Nat := ⟨embB.set 3 [(3, 9)], 1⟩

/-- Witness for C4 at `cm1`: key `5` is absent (both error cases) and key
`3` is stored (successful in-place overwrite). -/
theorem c4_set_remove_semantics_witness :
    hmSet hid cm1 5 0 = some (.error .KeyNotFound, cm1) ∧
    hmRemove hid cm1 5 = some (.error .KeyNotFound, cm1) ∧
    (∃ s2, hmSet hid cm1 3 4 = some (.ok (), s2) ∧
      hmGet hid s2 3 = some (.ok (some 4)) ∧
      s2.num_keys = cm1.num_keys ∧
      s2.buckets.length = cm1.buckets.length) :=
  ⟨(c4_set_remove_semantics hid cm1 5 0 (by decide)).1 (by decide),
   (c4_set_remove_semantics hid cm1 5 0 (by decide)).2.1 (by decide),
   (c4_set_remove_semantics hid cm1 3 4 (by decide)).2.2 (by decide)
     (by decide)⟩

/-! ## Insert/remove bookkeeping lemmas (no rehash triggered) -/

theorem updateF_noRehash (h : K → Nat) (fuel : Nat) (s : HashMap K V)
    (hc : s.buckets.length = 0 ∨ 4 * occupiedCount s < 3 * s.buckets.length) :
    updateF h fuel s = some s := by
  rw [updateF.eq_def]
  rcases hc with hc | hc
  · rw [if_pos hc]
  · rw [if_neg, if_neg (by omega)]
    omega

theorem appendEntry_length (h : K → Nat) (s : HashMap K V) (k : K) (v : V) :
    (appendEntry h s k v).buckets.length = s.buckets.length := by
  simp [appendEntry]

theorem appendEntry_num_keys (h : K → Nat) (s : HashMap K V) (k : K) (v : V) :
    (appendEntry h s k v).num_keys = s.num_keys + 1 := rfl

theorem insertF_noRehash (h : K → Nat) (fuel : Nat) (s : HashMap K V)
    (k : K) (v : V) (hlen : 0 < s.buckets.length)
    (hnk : s.num_keys + 1 < U64MOD)
    (hocc : 4 * occupiedCount (appendEntry h s k v) < 3 * s.buckets.length) :
    insertF h fuel s k v = some (.ok (), appendEntry h s k v) := by
  have hidx : h k % s.buckets.length < s.buckets.length := Nat.mod_lt _ hlen
  have hupd : updateF h fuel (appendEntry h s k v)
      = some (appendEntry h s k v) :=
    updateF_noRehash h fuel _ (by
      rw [appendEntry_length]
      exact Or.inr hocc)
  simp [insertF, insertPre, Nat.pos_iff_ne_zero.1 hlen, Nat.not_le.2 hidx,
    u64Add, hnk, hupd]

theorem hmInsert_noRehash (h : K → Nat) (s : HashMap K V) (k : K) (v : V)
    (hlen : 0 < s.buckets.length) (hnk : s.num_keys + 1 < U64MOD)
    (hocc : 4 * occupiedCount (appendEntry h s k v) < 3 * s.buckets.length) :
    hmInsert h s k v = some (.ok (), appendEntry h s k v) :=
  insertF_noRehash h _ s k v hlen hnk hocc

/-- The bucket a key hashes into. -/
def bucketOf (h : K → Nat) (s : HashMap K V) (k : K) : List (K × V) :=
  s.buckets.getD (h k % s.buckets.length) []

theorem hmGet_eq (h : K → Nat) (s : HashMap K V) (k : K)
    (hlen : 0 < s.buckets.length) :
    hmGet h s k = some (.ok (chainFind (bucketOf h s k) k)) := by
  have hidx : h k % s.buckets.length < s.buckets.length := Nat.mod_lt _ hlen
  simp [hmGet, Nat.pos_iff_ne_zero.1 hlen, Nat.not_le.2 hidx, bucketOf,
    List.getD_eq_getElem?_getD]

theorem getD_set_self {β : Type} (l : List β) (i : Nat) (x d : β)
    (hi : i < l.length) : (l.set i x).getD i d = x := by
  rw [List.getD_eq_getElem _ _ (by simpa using hi)]
  simp

theorem getD_set_ne {β : Type} (l : List β) {i j : Nat} (x d : β)
    (hij : i ≠ j) : (l.set i x).getD j d = l.getD j d := by
  rcases Nat.lt_or_ge j l.length with hj | hj
  · rw [List.getD_eq_getElem _ _ (by simpa using hj),
      List.getD_eq_getElem _ _ hj, List.getElem_set_ne hij]
  · rw [List.getD_eq_getElem?_getD, List.getD_eq_getElem?_getD,
      List.getElem?_eq_none (by simpa using hj),
      List.getElem?_eq_none hj]

theorem bucketOf_appendEntry_self (h : K → Nat) (s : HashMap K V) (k : K)
    (v : V) (hlen : 0 < s.buckets.length) :
    bucketOf h (appendEntry h s k v) k = bucketOf h s k ++ [(k, v)] := by
  have hidx : h k % s.buckets.length < s.buckets.length := Nat.mod_lt _ hlen
  simp only [bucketOf, appendEntry, appendEntry_length]
  rw [List.length_set]
  exact getD_set_self _ _ _ _ hidx

theorem bucketOf_appendEntry_other (h : K → Nat) (s : HashMap K V)
    {k k' : K} (v : V) (hne : h k % s.buckets.length ≠ h k' % s.buckets.length) :
    bucketOf h (appendEntry h s k v) k' = bucketOf h s k' := by
  simp only [bucketOf, appendEntry]
  rw [List.length_set]
  exact getD_set_ne _ _ _ hne

theorem chainFind_append_right {b : List (K × V)} {k : K} (v : V)
    (hb : chainFind b k = none) : chainFind (b ++ [(k, v)]) k = some v := by
  unfold chainFind at hb ⊢
  rw [List.find?_append]
  simp only [Option.map_eq_none'] at hb
  simp [hb]

theorem chainFind_append_left {b : List (K × V)} {k : K} {w : V}
    (e : K × V) (hb : chainFind b k = some w) :
    chainFind (b ++ [e]) k = some w := by
  unfold chainFind at hb ⊢
  rw [List.find?_append]
  obtain ⟨x, hx, hxw⟩ := Option.map_eq_some'.1 hb
  simp [hx, hxw]

theorem chainFind_append_ne {b : List (K × V)} {k k' : K} (v : V)
    (hne : k' ≠ k) : chainFind (b ++ [(k, v)]) k' = chainFind b k' := by
  unfold chainFind
  rw [List.find?_append]
  cases hfb : List.find? (fun e => decide (e.1 = k')) b with
  | none => simp [Ne.symm hne]
  | some x => simp

/-- `get` of any key other than the inserted one is unchanged by the
append. -/
theorem hmGet_appendEntry_other (h : K → Nat) (s : HashMap K V)
    {k k' : K} (v : V) (hlen : 0 < s.buckets.length) (hne : k' ≠ k) :
    hmGet h (appendEntry h s k v) k' = hmGet h s k' := by
  have hlen2 : 0 < (appendEntry h s k v).buckets.length := by
    rw [appendEntry_length]; exact hlen
  rw [hmGet_eq h _ _ hlen2, hmGet_eq h _ _ hlen]
  by_cases hb : h k % s.buckets.length = h k' % s.buckets.length
  · have h1 := bucketOf_appendEntry_self h s k v hlen
    have h2 : bucketOf h (appendEntry h s k v) k' = bucketOf h s k' ++ [(k, v)] := by
      unfold bucketOf at h1 ⊢
      rw [appendEntry_length] at h1 ⊢
      rw [← hb]
      exact h1
    rw [h2, chainFind_append_ne _ hne]
  · rw [bucketOf_appendEntry_other h s v hb]

/-! ## C2 -/

/-- The map after `insert(0, 5)` on a fresh map. -/
def cmDup1 : HashMap Nat Nat := ⟨embB.set 0 [(0, 5)], 1⟩

/-- `cmDup1` after a duplicate `insert(0, 7)`: both entries coexist in
bucket `0` and `num_keys` counts both. -/
def cmDup2 : HashMap Nat Nat := ⟨embB.set 0 [(0, 5), (0, 7)], 2⟩

/-- Counterexample to C2 as stated: inserting the same key twice from
`new()` yields `size() = 2` although only one distinct key was ever
inserted (the claim predicts `1`). -/
theorem c2_counterexample_duplicate_insert :
    (hmInsert hid (hmNew : HashMap Nat Nat) 0 5 = some (.ok (), cmDup1)) ∧
    (hmInsert hid cmDup1 0 7 = some (.ok (), cmDup2)) ∧
    hmSize cmDup2 = .ok 2 ∧
    (keyFinset cmDup2).card = 1 := by
  exact ⟨rfl, rfl, rfl, by decide⟩

/-! ## C3 -/

/-- Counterexample to C3 as stated: after `insert(0, 5)` and a second
`insert(0, 7)` with the same key, `get(0)` returns the first value `5`,
not the claimed overwriting value `7` — `insert` appends to the chain and
`get` returns the first match. -/
theorem c3_counterexample_duplicate_insert :
    (hmInsert hid (hmNew : HashMap Nat Nat) 0 5 = some (.ok (), cmDup1)) ∧
    (hmInsert hid cmDup1 0 7 = some (.ok (), cmDup2)) ∧
    hmGet hid cmDup2 0 = some (.ok (some 5)) ∧
    some (5 : Nat) ≠ some 7 := by
  exact ⟨rfl, rfl, rfl, by decide⟩

/-! ## Rehash bookkeeping lemmas -/

/-- The reinsertion step performed for each extracted pair during a
rehash: the body of `HashMap::insert` with its result `unwrap`ped. -/
def reinsertStep (h : K → Nat) (fuel : Nat) (st : HashMap K V)
    (kv : K × V) : Option (HashMap K V) :=
  match insertPre h st kv.1 kv.2 with
  | some (.ok t) => updateF h fuel t
  | _ => none

theorem updateF_fire (h : K → Nat) (fuel : Nat) (s : HashMap K V)
    (hlen : 0 < s.buckets.length)
    (hfire : 3 * s.buckets.length ≤ 4 * occupiedCount s)
    {newLen : Nat} (hmul : u64Mul s.buckets.length GROWTH_FACTOR = some newLen)
    {items : List (K × V)} (hitems : itemsOf h s = some items) :
    updateF h (fuel + 1) s =
      items.foldlM (reinsertStep h fuel)
        (⟨List.replicate newLen [], s.num_keys⟩ : HashMap K V) := by
  rw [updateF.eq_def]
  rw [if_neg (Nat.pos_iff_ne_zero.1 hlen), if_pos hfire]
  rw [hmul, hitems]
  rfl

theorem occupied_le_totalEntries (s : HashMap K V) :
    occupiedCount s ≤ totalEntries s := by
  unfold occupiedCount totalEntries
  induction s.buckets with
  | nil => simp
  | cons b t ih =>
    by_cases hb : b.isEmpty
    · simp [hb]
      omega
    · have h1 : 0 < b.length := by
        cases b with
        | nil => simp at hb
        | cons x xs => simp
      simp [hb]
      omega

theorem sumLen_set_append {β : Type} :
    ∀ (l : List (List β)) (i : Nat) (x : β), i < l.length →
    ((l.set i (l.getD i [] ++ [x])).map List.length).sum
      = ((l.map List.length).sum) + 1 := by
  intro l
  induction l with
  | nil => intro i x hi; simp at hi
  | cons b t ih =>
    intro i x hi
    match i with
    | 0 =>
      simp
      omega
    | i + 1 =>
      have hgd : (b :: t).getD (i + 1) [] = t.getD i [] := by
        rw [List.getD_eq_getElem?_getD, List.getD_eq_getElem?_getD,
          List.getElem?_cons_succ]
      rw [hgd]
      simp only [List.set, List.map, List.sum_cons]
      have := ih i x (by simpa using hi)
      omega

theorem totalEntries_appendEntry (h : K → Nat) (s : HashMap K V) (k : K)
    (v : V) (hlen : 0 < s.buckets.length) :
    totalEntries (appendEntry h s k v) = totalEntries s + 1 := by
  have hidx : h k % s.buckets.length < s.buckets.length := Nat.mod_lt _ hlen
  unfold totalEntries appendEntry
  exact sumLen_set_append s.buckets _ _ hidx

theorem totalEntries_replicate (n : Nat) (nk : Nat) :
    totalEntries (⟨List.replicate n [], nk⟩ : HashMap K V) = 0 := by
  unfold totalEntries
  induction n with
  | zero => rfl
  | succ m ih => simpa [List.replicate_succ] using ih

theorem getD_replicate {β : Type} (n i : Nat) (d : β) :
    (List.replicate n d).getD i d = d := by
  rw [List.getD_eq_getElem?_getD]
  rcases Nat.lt_or_ge i n with hi | hi
  · rw [List.getElem?_eq_getElem (by simpa using hi)]
    simp [List.getElem_replicate]
  · rw [List.getElem?_eq_none (by simpa using hi)]
    rfl

/-- Main reinsertion invariant: folding pairs into a map whose buckets
hold exactly the already-processed pairs, filtered by their hash, keeps
that shape, increments `num_keys` once per pair and triggers no nested
rehash as long as the total number of pairs stays below three quarters of
the bucket count. -/
theorem fold_reinsert (h : K → Nat) (fuel : Nat) {L : Nat} (hL : 0 < L) :
    ∀ (items processed : List (K × V)) (st : HashMap K V),
    st.buckets.length = L →
    st.num_keys + items.length < U64MOD →
    totalEntries st = processed.length →
    4 * (processed.length + items.length) < 3 * L →
    (∀ i, i < L → st.buckets.getD i [] =
      (processed.filter (fun kv => h kv.1 % L = i))) →
    ∃ stF, items.foldlM (reinsertStep h fuel) st = some stF ∧
      stF.buckets.length = L ∧
      stF.num_keys = st.num_keys + items.length ∧
      totalEntries stF = processed.length + items.length ∧
      (∀ i, i < L → stF.buckets.getD i [] =
        ((processed ++ items).filter (fun kv => h kv.1 % L = i))) := by
  intro items
  induction items with
  | nil =>
    intro processed st hlen hnk hte _hb hbuck
    exact ⟨st, rfl, hlen, by simp, by simpa using hte, by simpa using hbuck⟩
  | cons kv rest ih =>
    intro processed st hlen hnk hte hb hbuck
    have hlenpos : 0 < st.buckets.length := hlen ▸ hL
    have hidx : h kv.1 % st.buckets.length < st.buckets.length :=
      Nat.mod_lt _ hlenpos
    have hnk1 : st.num_keys + 1 < U64MOD := by
      simp only [List.length_cons] at hnk
      omega
    set t := appendEntry h st kv.1 kv.2 with ht
    have htlen : t.buckets.length = L := by
      rw [ht, appendEntry_length, hlen]
    have htte : totalEntries t = processed.length + 1 := by
      rw [ht, totalEntries_appendEntry h st kv.1 kv.2 hlenpos, hte]
    have hocc : 4 * occupiedCount t < 3 * L := by
      have h1 := occupied_le_totalEntries t
      rw [htte] at h1
      simp only [List.length_cons] at hb
      omega
    have hpre : insertPre h st kv.1 kv.2 = some (.ok t) := by
      simp [insertPre, Nat.pos_iff_ne_zero.1 hlenpos, Nat.not_le.2 hidx,
        u64Add, hnk1, ht]
    have hupd : updateF h fuel t = some t :=
      updateF_noRehash h fuel t (Or.inr (by rw [htlen]; exact hocc))
    have hstep : reinsertStep h fuel st kv = some t := by
      simp [reinsertStep, hpre, hupd]
    have htbuck : ∀ i, i < L → t.buckets.getD i [] =
        ((processed ++ [kv]).filter (fun kv2 => h kv2.1 % L = i)) := by
      intro i hi
      rw [List.filter_append]
      by_cases hik : i = h kv.1 % L
      · subst hik
        rw [ht]
        show (st.buckets.set (h kv.1 % st.buckets.length)
          (st.buckets.getD (h kv.1 % st.buckets.length) [] ++ [(kv.1, kv.2)])).getD
            (h kv.1 % L) [] = _
        rw [hlen]
        rw [getD_set_self _ _ _ _ (by rw [hlen]; exact Nat.mod_lt _ hL)]
        rw [hbuck _ (Nat.mod_lt _ hL)]
        simp
      · rw [ht]
        show (st.buckets.set (h kv.1 % st.buckets.length)
          (st.buckets.getD (h kv.1 % st.buckets.length) [] ++ [(kv.1, kv.2)])).getD
            i [] = _
        rw [hlen]
        rw [getD_set_ne _ _ _ (fun hc => hik hc.symm)]
        rw [hbuck _ hi]
        have : ¬ (h kv.1 % L = i) := fun hc => hik hc.symm
        simp [this]
    have hb2 : 4 * ((processed ++ [kv]).length + rest.length) < 3 * L := by
      simp only [List.length_cons] at hb
      simp only [List.length_append, List.length_cons, List.length_nil]
      omega
    obtain ⟨stF, hfold, hflen, hfnk, hfte, hfbuck⟩ :=
      ih (processed ++ [kv]) t htlen
        (by rw [ht, appendEntry_num_keys]
            simp only [List.length_cons] at hnk
            omega)
        (by rw [htte]; simp)
        hb2
        (by simpa using htbuck)
    refine ⟨stF, ?_, hflen, ?_, ?_, ?_⟩
    · rw [List.foldlM_cons, hstep]
      exact hfold
    · rw [hfnk, ht, appendEntry_num_keys]
      simp only [List.length_cons]
      omega
    · rw [hfte]
      simp only [List.length_append, List.length_cons, List.length_nil]
      omega
    · intro i hi
      rw [hfbuck i hi]
      simp

theorem uniqueKeysAux_mem (k : K) :
    ∀ (l seen : List K), k ∈ uniqueKeysAux seen l ↔ (k ∈ l ∧ k ∉ seen) := by
  intro l
  induction l with
  | nil => intro seen; simp [uniqueKeysAux]
  | cons x t ih =>
    intro seen
    by_cases hx : x ∈ seen
    · rw [uniqueKeysAux, if_pos hx, ih]
      constructor
      · rintro ⟨h1, h2⟩
        exact ⟨List.mem_cons_of_mem _ h1, h2⟩
      · rintro ⟨h1, h2⟩
        rcases List.mem_cons.1 h1 with rfl | h1
        · exact absurd hx h2
        · exact ⟨h1, h2⟩
    · rw [uniqueKeysAux, if_neg hx]
      by_cases hk : k = x
      · subst hk
        simp [hx]
      · simp only [List.mem_cons, hk, false_or]
        rw [ih]
        constructor
        · rintro ⟨h1, h2⟩
          exact ⟨h1, fun hc => h2 (List.mem_cons_of_mem _ hc)⟩
        · rintro ⟨h1, h2⟩
          refine ⟨h1, fun hc => ?_⟩
          rcases List.mem_cons.1 hc with rfl | hc2
          · exact hk rfl
          · exact h2 hc2

theorem uniqueKeys_mem (k : K) (l : List K) :
    k ∈ uniqueKeys l ↔ k ∈ l := by
  rw [uniqueKeys, uniqueKeysAux_mem]
  simp

theorem uniqueKeysAux_length_le :
    ∀ (l seen : List K), (uniqueKeysAux seen l).length ≤ l.length := by
  intro l
  induction l with
  | nil => intro seen; simp [uniqueKeysAux]
  | cons x t ih =>
    intro seen
    rw [uniqueKeysAux]
    by_cases hx : x ∈ seen
    · rw [if_pos hx]
      exact Nat.le_succ_of_le (ih seen)
    · rw [if_neg hx]
      simpa using ih (x :: seen)

theorem uniqueKeys_length_le (l : List K) :
    (uniqueKeys l).length ≤ l.length :=
  uniqueKeysAux_length_le l []

theorem keysList_length (s : HashMap K V) :
    (keysList s).length = totalEntries s := by
  unfold keysList totalEntries
  rw [List.length_map, List.length_flatten]

theorem chainFind_isSome {b : List (K × V)} {k : K}
    (hb : ∃ e ∈ b, e.1 = k) : ∃ w, chainFind b k = some w := by
  cases hcf : chainFind b k with
  | some w => exact ⟨w, rfl⟩
  | none =>
    obtain ⟨e, he, hek⟩ := hb
    unfold chainFind at hcf
    rw [Option.map_eq_none'] at hcf
    exact absurd (by simpa using hek) (by simpa using List.find?_eq_none.1 hcf e he)

theorem hmGet_present (h : K → Nat) {s : HashMap K V} {k : K}
    (hlen : 0 < s.buckets.length) (hwf : WFplacement h s)
    (hmem : k ∈ keysList s) :
    ∃ v, hmGet h s k = some (.ok (some v)) := by
  obtain ⟨w, hw⟩ := chainFind_isSome (mem_bucket_of_mem_keysList hwf hmem)
  have hw2 : chainFind (bucketOf h s k) k = some w := hw
  exact ⟨w, by rw [hmGet_eq h s k hlen, hw2]⟩

theorem mem_keysList_of_get (h : K → Nat) {s : HashMap K V} {k : K} {w : V}
    (hlen : 0 < s.buckets.length)
    (hget : hmGet h s k = some (.ok (some w))) : k ∈ keysList s := by
  rw [hmGet_eq h s k hlen] at hget
  have hcf : chainFind (bucketOf h s k) k = some w := by
    have := Option.some.inj hget
    have := Except.ok.inj this
    exact this
  unfold chainFind at hcf
  obtain ⟨e, he, hek⟩ := Option.map_eq_some'.1 hcf
  have h1 : e ∈ bucketOf h s k := List.mem_of_find?_eq_some he
  have h2 : e.1 = k := by simpa using List.find?_some he
  exact h2 ▸ mem_keysList_of_mem_bucket h1

theorem mapM_itemsStep (h : K → Nat) (s : HashMap K V) :
    ∀ (l : List K), (∀ k ∈ l, ∃ v, itemsStep h s k = some (k, v)) →
    ∃ res, l.mapM (itemsStep h s) = some res ∧ res.length = l.length ∧
      (∀ k w, itemsStep h s k = some (k, w) → k ∈ l →
        chainFind res k = some w) ∧
      (∀ k, k ∉ l → chainFind res k = none) := by
  intro l
  induction l with
  | nil =>
    intro _
    exact ⟨[], rfl, rfl, by simp, fun k _ => rfl⟩
  | cons x t ih =>
    intro hall
    obtain ⟨vx, hvx⟩ := hall x (List.mem_cons_self ..)
    obtain ⟨res, hres, hlen, hfind, hnone⟩ :=
      ih (fun k hk => hall k (List.mem_cons_of_mem _ hk))
    refine ⟨(x, vx) :: res, ?_, by simp [hlen], ?_, ?_⟩
    · rw [List.mapM_cons, hvx, hres]
      rfl
    · intro k w hkw hk
      by_cases hkx : k = x
      · subst hkx
        rw [hvx] at hkw
        have h2 : (k, vx) = (k, w) := Option.some.inj hkw
        have : vx = w := congrArg Prod.snd h2
        subst this
        exact chainFind_cons_self rfl
      · rcases List.mem_cons.1 hk with rfl | hk2
        · exact absurd rfl hkx
        · rw [chainFind_cons_ne (fun h2 => hkx h2.symm)]
          exact hfind k w hkw hk2
    · intro k hk
      have hkx : k ≠ x := fun h2 => hk (h2 ▸ List.mem_cons_self ..)
      have hkt : k ∉ t := fun h2 => hk (List.mem_cons_of_mem _ h2)
      rw [chainFind_cons_ne (fun h2 => hkx h2.symm)]
      exact hnone k hkt

theorem itemsOf_spec (h : K → Nat) (s : HashMap K V)
    (hlen : 0 < s.buckets.length) (hwf : WFplacement h s) :
    ∃ items, itemsOf h s = some items ∧
      items.length = (uniqueKeys (keysList s)).length ∧
      (∀ k w, hmGet h s k = some (.ok (some w)) → chainFind items k = some w) ∧
      (∀ k, k ∉ keysList s → chainFind items k = none) := by
  have hall : ∀ k ∈ uniqueKeys (keysList s), ∃ v, itemsStep h s k = some (k, v) := by
    intro k hk
    obtain ⟨v, hv⟩ := hmGet_present h hlen hwf ((uniqueKeys_mem k _).1 hk)
    exact ⟨v, by simp [itemsStep, hv]⟩
  obtain ⟨items, hres, hlen2, hfind, hnone⟩ := mapM_itemsStep h s _ hall
  refine ⟨items, hres, hlen2, ?_, ?_⟩
  · intro k w hget
    exact hfind k w (by simp [itemsStep, hget])
      ((uniqueKeys_mem k _).2 (mem_keysList_of_get h hlen hget))
  · intro k hk
    exact hnone k (fun h2 => hk ((uniqueKeys_mem k _).1 h2))

theorem chainFind_filter_keep (p : K × V → Bool) (k : K)
    (hkeep : ∀ v : V, p (k, v) = true) :
    ∀ (l : List (K × V)), chainFind (l.filter p) k = chainFind l k := by
  intro l
  induction l with
  | nil => rfl
  | cons e t ih =>
    by_cases hek : e.1 = k
    · have he2 : e = (k, e.2) := by
        cases e
        cases hek
        rfl
      have hp : p e = true := by rw [he2]; exact hkeep e.2
      rw [List.filter_cons_of_pos hp, chainFind_cons_self hek,
        chainFind_cons_self hek]
    · cases hp : p e with
      | true =>
        rw [List.filter_cons_of_pos hp, chainFind_cons_ne hek,
          chainFind_cons_ne hek]
        exact ih
      | false =>
        rw [List.filter_cons_of_neg (by simp [hp]), chainFind_cons_ne hek]
        exact ih

/-- A rehash (with enough headroom that the restore loop does not cascade
into a second rehash) doubles the bucket count, adds the number of
distinct keys to `num_keys`, and preserves the value `get` observes for
every stored key. -/
theorem updateF_rehash (h : K → Nat) (fuel : Nat) (s : HashMap K V)
    (hlen : 0 < s.buckets.length) (hwf : WFplacement h s)
    (hfire : 3 * s.buckets.length ≤ 4 * occupiedCount s)
    (hmul : s.buckets.length * GROWTH_FACTOR < U64MOD)
    (hnk : s.num_keys + totalEntries s < U64MOD)
    (hnc : 4 * totalEntries s < 3 * (s.buckets.length * GROWTH_FACTOR)) :
    ∃ s2, updateF h (fuel + 1) s = some s2 ∧
      s2.buckets.length = s.buckets.length * GROWTH_FACTOR ∧
      s2.num_keys = s.num_keys + (uniqueKeys (keysList s)).length ∧
      (∀ k w, hmGet h s k = some (.ok (some w)) →
        hmGet h s2 k = some (.ok (some w))) := by
  obtain ⟨items, hitems, hilen, hifind, _hinone⟩ := itemsOf_spec h s hlen hwf
  have hile : items.length ≤ totalEntries s := by
    rw [hilen, ← keysList_length]
    exact uniqueKeys_length_le _
  set L2 := s.buckets.length * GROWTH_FACTOR with hL2
  have hL2pos : 0 < L2 := by
    rw [hL2]
    unfold GROWTH_FACTOR
    omega
  have hmulres : u64Mul s.buckets.length GROWTH_FACTOR = some L2 := by
    simp [u64Mul, hmul, hL2]
  have hfold := fold_reinsert h fuel hL2pos items []
    (⟨List.replicate L2 [], s.num_keys⟩ : HashMap K V)
    (by simp) (by simp only [List.length_nil]; omega)
    (totalEntries_replicate L2 s.num_keys)
    (by simp only [List.length_nil]; omega)
    (by
      intro i _hi
      simp only [List.filter_nil]
      exact getD_replicate L2 i [])
  obtain ⟨stF, hfold2, hflen, hfnk, _hfte, hfbuck⟩ := hfold
  refine ⟨stF, ?_, by rw [hflen], by rw [hfnk, hilen], ?_⟩
  · rw [updateF_fire h fuel s hlen hfire hmulres hitems]
    exact hfold2
  · intro k w hget
    have hkL2 : h k % L2 < L2 := Nat.mod_lt _ hL2pos
    have hflenpos : 0 < stF.buckets.length := by rw [hflen]; exact hL2pos
    rw [hmGet_eq h stF k hflenpos]
    have hbk : bucketOf h stF k =
        items.filter (fun kv => h kv.1 % L2 = h k % L2) := by
      unfold bucketOf
      rw [hflen]
      simpa using hfbuck (h k % L2) hkL2
    rw [hbk, chainFind_filter_keep _ k (fun v => by simp) items,
      hifind k w hget]

theorem WFplacement_appendEntry (h : K → Nat) {s : HashMap K V}
    (hwf : WFplacement h s) (hlen : 0 < s.buckets.length) (k : K) (v : V) :
    WFplacement h (appendEntry h s k v) := by
  intro i hi e he
  rw [appendEntry_length] at hi
  rw [appendEntry_length]
  by_cases hik : i = h k % s.buckets.length
  · subst hik
    rw [show (appendEntry h s k v).buckets =
        s.buckets.set (h k % s.buckets.length)
          (s.buckets.getD (h k % s.buckets.length) [] ++ [(k, v)]) from rfl,
      getD_set_self _ _ _ _ (Nat.mod_lt _ hlen)] at he
    rcases List.mem_append.1 he with he2 | he2
    · exact hwf _ (Nat.mod_lt _ hlen) e he2
    · have : e = (k, v) := by simpa using he2
      rw [this]
  · rw [show (appendEntry h s k v).buckets =
        s.buckets.set (h k % s.buckets.length)
          (s.buckets.getD (h k % s.buckets.length) [] ++ [(k, v)]) from rfl,
      getD_set_ne _ _ _ (fun hc => hik hc.symm)] at he
    exact hwf i hi e he

/-- `HashMap::insert` when the append pushes the occupancy over the
threshold: the rehash runs (without cascading, given the headroom
hypotheses), `num_keys` additionally grows by the number of distinct
keys, and every previously observable value is still returned by `get`. -/
theorem hmInsert_rehash (h : K → Nat) (s : HashMap K V) (k : K) (v : V)
    (hlen : 0 < s.buckets.length) (hwf : WFplacement h s)
    (hnk1 : s.num_keys + 1 < U64MOD)
    (hfire : 3 * s.buckets.length ≤
      4 * occupiedCount (appendEntry h s k v))
    (hmul : s.buckets.length * GROWTH_FACTOR < U64MOD)
    (hnkT : (s.num_keys + 1) + (totalEntries s + 1) < U64MOD)
    (hncT : 4 * (totalEntries s + 1) < 3 * (s.buckets.length * GROWTH_FACTOR)) :
    ∃ s2, hmInsert h s k v = some (.ok (), s2) ∧
      s2.buckets.length = s.buckets.length * GROWTH_FACTOR ∧
      s2.num_keys = (s.num_keys + 1) +
        (uniqueKeys (keysList (appendEntry h s k v))).length ∧
      (∀ k2 w, hmGet h (appendEntry h s k v) k2 = some (.ok (some w)) →
        hmGet h s2 k2 = some (.ok (some w))) := by
  have hidx : h k % s.buckets.length < s.buckets.length := Nat.mod_lt _ hlen
  set t := appendEntry h s k v with ht
  have htlen : t.buckets.length = s.buckets.length := appendEntry_length ..
  have htlenpos : 0 < t.buckets.length := by rw [htlen]; exact hlen
  have htwf : WFplacement h t := WFplacement_appendEntry h hwf hlen k v
  have htte : totalEntries t = totalEntries s + 1 :=
    totalEntries_appendEntry h s k v hlen
  have hrh := updateF_rehash h (totalEntries s + 1) t htlenpos htwf
    (by rw [htlen]; exact hfire)
    (by rw [htlen]; exact hmul)
    (by rw [htte, ht, appendEntry_num_keys]; omega)
    (by rw [htte, htlen]; exact hncT)
  obtain ⟨s2, hupd, hs2len, hs2nk, hs2get⟩ := hrh
  have hpre : insertPre h s k v = some (.ok t) := by
    simp [insertPre, Nat.pos_iff_ne_zero.1 hlen, Nat.not_le.2 hidx, u64Add,
      hnk1, ht]
  refine ⟨s2, ?_, by rw [hs2len, htlen], ?_, hs2get⟩
  · show insertF h (totalEntries s + 2) s k v = some (.ok (), s2)
    have hupd2 : updateF h (totalEntries s + 2) t = some s2 := hupd
    simp [insertF, hpre, hupd2]
  · rw [hs2nk, ht, appendEntry_num_keys]

theorem filterNE_set_le {β : Type} :
    ∀ (l : List (List β)) (i : Nat) (b2 : List β),
    (b2.isEmpty = false → (l.getD i []).isEmpty = false) →
    ((l.set i b2).filter (fun x => !x.isEmpty)).length ≤
      (l.filter (fun x => !x.isEmpty)).length := by
  intro l
  induction l with
  | nil =>
    intro i b2 _
    simp
  | cons b t ih =>
    intro i b2 hcond
    match i with
    | 0 =>
      simp only [List.set]
      cases hb2 : b2.isEmpty with
      | true =>
        rw [List.filter_cons_of_neg (by simp [hb2])]
        cases hb : b.isEmpty with
        | true => rw [List.filter_cons_of_neg (by simp [hb])]
        | false =>
          rw [List.filter_cons_of_pos (by simp [hb])]
          exact Nat.le_succ_of_le (Nat.le_refl _)
      | false =>
        have hb : b.isEmpty = false := hcond (by simpa using hb2)
        rw [List.filter_cons_of_pos (by simp [hb2]),
          List.filter_cons_of_pos (by simp [hb])]
        simp
    | i + 1 =>
      simp only [List.set]
      have hgd : (b :: t).getD (i + 1) [] = t.getD i [] := by
        rw [List.getD_eq_getElem?_getD, List.getD_eq_getElem?_getD,
          List.getElem?_cons_succ]
      rw [hgd] at hcond
      have := ih i b2 hcond
      cases hb : b.isEmpty with
      | true =>
        rw [List.filter_cons_of_neg (by simp [hb]),
          List.filter_cons_of_neg (by simp [hb])]
        exact this
      | false =>
        rw [List.filter_cons_of_pos (by simp [hb]),
          List.filter_cons_of_pos (by simp [hb])]
        simpa using this

/-- A successful `remove` (that does not trigger a rehash) erases the
first matching entry and decrements `num_keys` by one. -/
theorem hmRemove_present (h : K → Nat) (s : HashMap K V) (k : K)
    (hlen : 0 < s.buckets.length) (hwf : WFplacement h s)
    (hmem : k ∈ keysList s) (hnk0 : 0 < s.num_keys)
    (hocc : 4 * occupiedCount s < 3 * s.buckets.length) :
    ∃ s2, hmRemove h s k = some (.ok (), s2) ∧
      s2.num_keys = s.num_keys - 1 ∧
      s2.buckets.length = s.buckets.length := by
  have hidx : h k % s.buckets.length < s.buckets.length := Nat.mod_lt _ hlen
  obtain ⟨e, he, hek⟩ := mem_bucket_of_mem_keysList hwf hmem
  cases hci : chainIdx (s.buckets.getD (h k % s.buckets.length) []) k with
  | none =>
    exfalso
    have := List.findIdx?_eq_none_iff.1 hci e he
    simp [hek] at this
  | some j =>
    refine ⟨⟨s.buckets.set (h k % s.buckets.length)
      ((s.buckets.getD (h k % s.buckets.length) []).eraseIdx j),
      s.num_keys - 1⟩, ?_, rfl, by simp⟩
    have hocc2 : occupiedCount
        (⟨s.buckets.set (h k % s.buckets.length)
          ((s.buckets.getD (h k % s.buckets.length) []).eraseIdx j),
          s.num_keys - 1⟩ : HashMap K V) ≤ occupiedCount s := by
      unfold occupiedCount
      refine filterNE_set_le s.buckets _ _ (fun hne => ?_)
      cases hb : s.buckets.getD (h k % s.buckets.length) [] with
      | nil =>
        rw [hb] at hne
        simp [List.eraseIdx] at hne
      | cons x xs => simp [hb]
    have hupd : updateF h (totalEntries s + 2)
        (⟨s.buckets.set (h k % s.buckets.length)
          ((s.buckets.getD (h k % s.buckets.length) []).eraseIdx j),
          s.num_keys - 1⟩ : HashMap K V) = some
        (⟨s.buckets.set (h k % s.buckets.length)
          ((s.buckets.getD (h k % s.buckets.length) []).eraseIdx j),
          s.num_keys - 1⟩ : HashMap K V) := by
      refine updateF_noRehash h _ _ (Or.inr ?_)
      show 4 * occupiedCount _ <
        3 * (s.buckets.set (h k % s.buckets.length)
          ((s.buckets.getD (h k % s.buckets.length) []).eraseIdx j)).length
      rw [List.length_set]
      omega
    show removeF h (totalEntries s + 2) s k = _
    unfold removeF
    rw [if_neg (Nat.pos_iff_ne_zero.1 hlen), if_neg (Nat.not_le.2 hidx), hci]
    dsimp only
    rw [u64Sub1, if_neg (Nat.pos_iff_ne_zero.1 hnk0)]
    dsimp only
    rw [hupd]

/-- `get` of a stored key is unchanged by the append an `insert` performs,
whether or not the appended key is the same. -/
theorem hmGet_appendEntry_pres (h : K → Nat) (s : HashMap K V)
    {k k2 : K} {w : V} (v2 : V) (hlen : 0 < s.buckets.length)
    (hget : hmGet h s k = some (.ok (some w))) :
    hmGet h (appendEntry h s k2 v2) k = some (.ok (some w)) := by
  have hlen2 : 0 < (appendEntry h s k2 v2).buckets.length := by
    rw [appendEntry_length]
    exact hlen
  rw [hmGet_eq h s k hlen] at hget
  have hcf : chainFind (bucketOf h s k) k = some w :=
    Except.ok.inj (Option.some.inj hget)
  by_cases hk : k = k2
  · subst hk
    rw [hmGet_eq h _ k hlen2, bucketOf_appendEntry_self h s k v2 hlen,
      chainFind_append_left _ hcf]
  · rw [hmGet_appendEntry_other h s v2 hlen hk, hmGet_eq h s k hlen, hcf]

/-! ### The C2 and C3 theorems -/

/-- C2 amended: `size()` counts stored entries, not distinct keys.  Every
insert that completes without triggering a rehash increases `size()` by
exactly one — also when the key is already present —, every successful
remove (without rehash) decreases it by exactly one, and an insert whose
append does trigger a rehash (with enough headroom that the restore loop
does not cascade) additionally increases `size()` by the number of
distinct keys present after the append. -/
theorem c2_size_counts_entries (h : K → Nat) :
    (∀ (s : HashMap K V) (k : K) (v : V),
      0 < s.buckets.length → s.num_keys + 1 < U64MOD →
      4 * occupiedCount (appendEntry h s k v) < 3 * s.buckets.length →
      hmInsert h s k v = some (.ok (), appendEntry h s k v) ∧
        hmSize (appendEntry h s k v) = .ok (s.num_keys + 1)) ∧
    (∀ (s : HashMap K V) (k : K),
      0 < s.buckets.length → WFplacement h s → k ∈ keysList s →
      0 < s.num_keys → 4 * occupiedCount s < 3 * s.buckets.length →
      ∃ s2, hmRemove h s k = some (.ok (), s2) ∧
        hmSize s2 = .ok (s.num_keys - 1)) ∧
    (∀ (s : HashMap K V) (k : K) (v : V),
      0 < s.buckets.length → WFplacement h s →
      s.num_keys + 1 < U64MOD →
      3 * s.buckets.length ≤ 4 * occupiedCount (appendEntry h s k v) →
      s.buckets.length * GROWTH_FACTOR < U64MOD →
      (s.num_keys + 1) + (totalEntries s + 1) < U64MOD →
      4 * (totalEntries s + 1) < 3 * (s.buckets.length * GROWTH_FACTOR) →
      ∃ s2, hmInsert h s k v = some (.ok (), s2) ∧
        hmSize s2 = .ok ((s.num_keys + 1) +
          (uniqueKeys (keysList (appendEntry h s k v))).length)) := by
  refine ⟨fun s k v hlen hnk hocc => ?_, fun s k hlen hwf hmem hnk0 hocc => ?_,
    fun s k v hlen hwf hnk hfire hmul hnkT hncT => ?_⟩
  · exact ⟨hmInsert_noRehash h s k v hlen hnk hocc,
      by rw [hmSize, appendEntry_num_keys]⟩
  · obtain ⟨s2, hrm, hnk2, _⟩ :=
      hmRemove_present h s k hlen hwf hmem hnk0 hocc
    exact ⟨s2, hrm, by rw [hmSize, hnk2]⟩
  · obtain ⟨s2, hins, _, hnk2, _⟩ :=
      hmInsert_rehash h s k v hlen hwf hnk hfire hmul hnkT hncT
    exact ⟨s2, hins, by rw [hmSize, hnk2]⟩

/-- C3 amended: after `insert(k, v)` of a fresh key, `get(k)` returns `v`;
a second `insert(k, v')` of the same key does not overwrite — every value
observable through `get` before any insert (including the first value of a
duplicated key) is still what `get` returns afterwards, whether the insert
leaves the occupancy below the rehash threshold or pushes it over and
triggers a (non-cascading) rehash. -/
theorem c3_get_after_insert (h : K → Nat) :
    (∀ (s : HashMap K V) (k : K) (v : V),
      0 < s.buckets.length → s.num_keys + 1 < U64MOD →
      k ∉ keysList s →
      4 * occupiedCount (appendEntry h s k v) < 3 * s.buckets.length →
      ∃ s2, hmInsert h s k v = some (.ok (), s2) ∧
        hmGet h s2 k = some (.ok (some v))) ∧
    (∀ (s : HashMap K V) (k k2 : K) (v2 w : V),
      0 < s.buckets.length → s.num_keys + 1 < U64MOD →
      hmGet h s k = some (.ok (some w)) →
      4 * occupiedCount (appendEntry h s k2 v2) < 3 * s.buckets.length →
      ∃ s2, hmInsert h s k2 v2 = some (.ok (), s2) ∧
        hmGet h s2 k = some (.ok (some w))) ∧
    (∀ (s : HashMap K V) (k k2 : K) (v2 w : V),
      0 < s.buckets.length → WFplacement h s →
      s.num_keys + 1 < U64MOD →
      hmGet h s k = some (.ok (some w)) →
      3 * s.buckets.length ≤ 4 * occupiedCount (appendEntry h s k2 v2) →
      s.buckets.length * GROWTH_FACTOR < U64MOD →
      (s.num_keys + 1) + (totalEntries s + 1) < U64MOD →
      4 * (totalEntries s + 1) < 3 * (s.buckets.length * GROWTH_FACTOR) →
      ∃ s2, hmInsert h s k2 v2 = some (.ok (), s2) ∧
        hmGet h s2 k = some (.ok (some w))) := by
  refine ⟨fun s k v hlen hnk hab hocc => ?_,
    fun s k k2 v2 w hlen hnk hget hocc => ?_,
    fun s k k2 v2 w hlen hwf hnk hget hfire hmul hnkT hncT => ?_⟩
  · refine ⟨appendEntry h s k v, hmInsert_noRehash h s k v hlen hnk hocc, ?_⟩
    have hlen2 : 0 < (appendEntry h s k v).buckets.length := by
      rw [appendEntry_length]
      exact hlen
    have hcf : chainFind (bucketOf h s k) k = none :=
      chainFind_eq_none
        (fun e he hek => hab (hek ▸ mem_keysList_of_mem_bucket he))
    rw [hmGet_eq h _ k hlen2, bucketOf_appendEntry_self h s k v hlen,
      chainFind_append_right _ hcf]
  · exact ⟨appendEntry h s k2 v2, hmInsert_noRehash h s k2 v2 hlen hnk hocc,
      hmGet_appendEntry_pres h s v2 hlen hget⟩
  · obtain ⟨s2, hins, _, _, hpres⟩ :=
      hmInsert_rehash h s k2 v2 hlen hwf hnk hfire hmul hnkT hncT
    exact ⟨s2, hins, hpres k w (hmGet_appendEntry_pres h s v2 hlen hget)⟩

/-! ### Concrete states for the C2/C3 witnesses -/

/-- Bucket vector holding 48 one-entry chains in buckets `0 .. 47`. -/
def bb48 : List (List (Nat × Nat)) :=
  (List.range 48).foldl (fun b k => b.set k [(k, k)]) embB

/-- A map with 48 distinct keys in 48 distinct buckets: one further insert
pushes the occupancy fraction to `49/64 ≥ 0.75`... the appended state
crosses the threshold and the next insert rehashes. -/
def cm48 : HashMap Nat Nat := ⟨bb48, 48⟩

/-- Witness for C2: a duplicate insert on `cm1` (key `3` already present)
still adds one to `size()`; removing it subtracts one; the
threshold-crossing insert on `cm48` runs the rehash branch. -/
theorem c2_size_counts_entries_witness :
    (hmInsert hid cm1 3 7 = some (.ok (), appendEntry hid cm1 3 7) ∧
      hmSize (appendEntry hid cm1 3 7) = .ok 2) ∧
    (∃ s2, hmRemove hid cm1 3 = some (.ok (), s2) ∧
      hmSize s2 = .ok 0) ∧
    (∃ s2, hmInsert hid cm48 50 50 = some (.ok (), s2) ∧
      hmSize s2 = .ok (49 +
        (uniqueKeys (keysList (appendEntry hid cm48 50 50))).length)) :=
  ⟨(c2_size_counts_entries hid).1 cm1 3 7 (by decide) (by decide) (by decide),
   (c2_size_counts_entries hid).2.1 cm1 3 (by decide) (by decide) (by decide)
     (by decide) (by decide),
   (c2_size_counts_entries hid).2.2 cm48 50 50 (by decide) (by decide)
     (by decide) (by decide) (by decide) (by decide) (by decide)⟩

/-- Witness for C3: a fresh insert on `cm1` is retrievable; a duplicate
insert on `cmDup1` leaves `get` at the first value `5`; the
threshold-crossing insert on `cm48` preserves the value of key `7` across
the rehash. -/
theorem c3_get_after_insert_witness :
    (∃ s2, hmInsert hid cm1 5 6 = some (.ok (), s2) ∧
      hmGet hid s2 5 = some (.ok (some 6))) ∧
    (∃ s2, hmInsert hid cmDup1 0 7 = some (.ok (), s2) ∧
      hmGet hid s2 0 = some (.ok (some 5))) ∧
    (∃ s2, hmInsert hid cm48 50 50 = some (.ok (), s2) ∧
      hmGet hid s2 7 = some (.ok (some 7))) :=
  ⟨(c3_get_after_insert hid).1 cm1 5 6 (by decide) (by decide) (by decide)
     (by decide),
   (c3_get_after_insert hid).2.1 cmDup1 0 0 7 5 (by decide) (by decide)
     (by decide) (by decide),
   (c3_get_after_insert hid).2.2 cm48 7 50 50 7 (by decide) (by decide)
     (by decide) (by decide) (by decide) (by decide) (by decide) (by decide)⟩

/-! ## C6: the matrix invariant -/

/-- The C6 invariant: square matrix of dimension `num_vertices`,
symmetric below that dimension. -/
def GInv (g : AdjMatGraph VL EL) : Prop :=
  MatSquare g ∧ MatSymm g

theorem matGet_eq_bind (m : List (List Nat)) (a b : Nat) :
    matGet m a b = (m[a]?).bind (fun row => row[b]?) := by
  unfold matGet
  cases m[a]? with
  | none => rfl
  | some row => rfl

theorem MatSquare_row {g : AdjMatGraph VL EL} (hsq : MatSquare g) {j : Nat}
    (hj : j < g.num_vertices) :
    ∃ row, g.adjacency_matrix[j]? = some row ∧ row.length = g.num_vertices := by
  obtain ⟨hlen, hrows⟩ := hsq
  have hj2 : j < g.adjacency_matrix.length := by omega
  exact ⟨g.adjacency_matrix[j], List.getElem?_eq_getElem hj2,
    hrows _ (List.getElem_mem hj2)⟩

/-- Shape preservation of a cell mutation. -/
theorem matModify_shape {m m2 : List (List Nat)} {a b : Nat}
    {f : Nat → Option Nat} (hm : matModify m a b f = some m2) :
    m2.length = m.length ∧
      ∀ j : Nat, Option.map (fun r : List Nat => r.length) m2[j]?
        = Option.map (fun r : List Nat => r.length) m[j]? := by
  unfold matModify at hm
  cases hrow : m[a]? with
  | none => rw [hrow] at hm; exact absurd hm (by simp)
  | some row =>
    simp only [hrow] at hm
    cases hc : row[b]? with
    | none => simp [hc] at hm
    | some c =>
      simp only [hc] at hm
      cases hfc : f c with
      | none => simp [hfc] at hm
      | some c2 =>
        simp only [hfc] at hm
        have hm2 : m2 = m.set a (row.set b c2) := (Option.some.inj hm).symm
        subst hm2
        refine ⟨by simp, fun j => ?_⟩
        by_cases hj : a = j
        · subst hj
          have ha : a < m.length := by
            by_contra hc2
            rw [List.getElem?_eq_none (by omega)] at hrow
            exact Option.noConfusion hrow
          rw [List.getElem?_set_self ha, hrow]
          simp
        · rw [List.getElem?_set_ne hj]

/-- Value description of a cell mutation: the touched cell holds `f` of
its old value, every other cell is unchanged. -/
theorem matGet_matModify {m m2 : List (List Nat)} {a b : Nat}
    {f : Nat → Option Nat} (hm : matModify m a b f = some m2) :
    (∃ c c2, matGet m a b = some c ∧ f c = some c2 ∧
      matGet m2 a b = some c2) ∧
    (∀ x y, ¬(x = a ∧ y = b) → matGet m2 x y = matGet m x y) := by
  unfold matModify at hm
  cases hrow : m[a]? with
  | none => rw [hrow] at hm; exact absurd hm (by simp)
  | some row =>
    simp only [hrow] at hm
    cases hc : row[b]? with
    | none => simp [hc] at hm
    | some c =>
      simp only [hc] at hm
      cases hfc : f c with
      | none => simp [hfc] at hm
      | some c2 =>
        simp only [hfc] at hm
        have hm2 : m2 = m.set a (row.set b c2) := (Option.some.inj hm).symm
        subst hm2
        have ha : a < m.length := by
          by_contra hc2
          rw [List.getElem?_eq_none (by omega)] at hrow
          exact Option.noConfusion hrow
        have hb : b < row.length := by
          by_contra hc2
          rw [List.getElem?_eq_none (by omega)] at hc
          exact Option.noConfusion hc
        constructor
        · refine ⟨c, c2, ?_, hfc, ?_⟩
          · rw [matGet_eq_bind, hrow]
            simpa using hc
          · rw [matGet_eq_bind, List.getElem?_set_self ha]
            simp [List.getElem?_set_self (by simpa using hb)]
        · intro x y hxy
          rw [matGet_eq_bind, matGet_eq_bind]
          by_cases hxa : x = a
          · subst hxa
            have hyb : y ≠ b := fun hc2 => hxy ⟨rfl, hc2⟩
            rw [List.getElem?_set_self ha, hrow]
            simp [List.getElem?_set_ne (fun hc2 => hyb hc2.symm)]
          · rw [List.getElem?_set_ne (fun hc2 => hxa hc2.symm)]

/-- Two symmetric cell mutations at `(a, b)` and `(b, a)` preserve
symmetry of all cells. -/
theorem matModify_pair_symm {m m1 m2 : List (List Nat)} {a b : Nat}
    {f : Nat → Option Nat}
    (hsymm : ∀ x y, matGet m x y = matGet m y x)
    (h1 : matModify m a b f = some m1)
    (h2 : matModify m1 b a f = some m2) :
    ∀ x y, matGet m2 x y = matGet m2 y x := by
  obtain ⟨⟨c, c2, hc, hfc, hc2⟩, hother1⟩ := matGet_matModify h1
  obtain ⟨⟨d, d2, hd, hfd, hd2⟩, hother2⟩ := matGet_matModify h2
  by_cases hab : a = b
  · subst hab
    intro x y
    by_cases hx : x = a ∧ y = a
    · obtain ⟨rfl, rfl⟩ := hx
      rfl
    · have hyx : ¬(y = a ∧ x = a) := fun ⟨h3, h4⟩ => hx ⟨h4, h3⟩
      rw [hother2 x y hx, hother2 y x hyx]
      by_cases hx2 : x = a ∧ y = a
      · exact absurd hx2 hx
      · rw [hother1 x y hx, hother1 y x hyx]
        exact hsymm x y
  · have hdc : d = c := by
      have hba : ¬(b = a ∧ a = b) := fun h3 => hab h3.1.symm
      rw [hother1 b a hba, hsymm b a, hc] at hd
      exact (Option.some.inj hd).symm
    have hd2c2 : d2 = c2 := by
      rw [hdc, hfc] at hfd
      exact (Option.some.inj hfd).symm
    have habm2 : matGet m2 a b = some c2 := by
      have hne : ¬(a = b ∧ b = a) := fun h3 => hab h3.1
      rw [hother2 a b hne]
      exact hc2
    have hbam2 : matGet m2 b a = some c2 := by
      rw [hd2, hd2c2]
    intro x y
    by_cases hxab : x = a ∧ y = b
    · obtain ⟨rfl, rfl⟩ := hxab
      rw [habm2, hbam2]
    · by_cases hxba : x = b ∧ y = a
      · obtain ⟨rfl, rfl⟩ := hxba
        rw [habm2, hbam2]
      · have hyba : ¬(y = b ∧ x = a) := fun h3 => hxab ⟨h3.2, h3.1⟩
        have hyab : ¬(y = a ∧ x = b) := fun h3 => hxba ⟨h3.2, h3.1⟩
        rw [hother2 x y hxba, hother2 y x hyba,
          hother1 x y hxab, hother1 y x hyab]
        exact hsymm x y

theorem u64Add_some {a b x : Nat} (h2 : u64Add a b = some x) : x = a + b := by
  unfold u64Add at h2
  by_cases hc : a + b < U64MOD
  · rw [if_pos hc] at h2
    exact (Option.some.inj h2).symm
  · rw [if_neg hc] at h2
    exact absurd h2 (by simp)

theorem u64Sub1_some {a x : Nat} (h2 : u64Sub1 a = some x) :
    a ≠ 0 ∧ x = a - 1 := by
  unfold u64Sub1 at h2
  by_cases hc : a = 0
  · rw [if_pos hc] at h2
    exact absurd h2 (by simp)
  · rw [if_neg hc] at h2
    exact ⟨hc, (Option.some.inj h2).symm⟩

/-- A square-of-dimension predicate on raw matrices. -/
def sqMat (m : List (List Nat)) (n : Nat) : Prop :=
  m.length = n ∧ ∀ row ∈ m, row.length = n

theorem sqMat_of_shape {m m2 : List (List Nat)} {n : Nat}
    (hsq : sqMat m n) (hlen : m2.length = m.length)
    (hpt : ∀ j : Nat, Option.map (fun r : List Nat => r.length) m2[j]?
      = Option.map (fun r : List Nat => r.length) m[j]?) :
    sqMat m2 n := by
  obtain ⟨hl, hr⟩ := hsq
  refine ⟨by omega, fun row hrow => ?_⟩
  obtain ⟨j, hj⟩ := List.mem_iff_getElem?.1 hrow
  have := hpt j
  rw [hj] at this
  cases hmj : m[j]? with
  | none => rw [hmj] at this; exact absurd this (by simp)
  | some row2 =>
    rw [hmj] at this
    have hlen2 : row.length = row2.length := by simpa using this
    rw [hlen2]
    exact hr row2 (List.mem_iff_getElem?.2 ⟨j, hmj⟩)

theorem matGet_none_left {m : List (List Nat)} {x : Nat} (y : Nat)
    (hx : m[x]? = none) : matGet m x y = none := by
  unfold matGet
  rw [hx]

/-- For a square matrix, symmetry below the dimension extends to all
index pairs (out-of-range reads are `none` on both sides). -/
theorem matGet_symm_all {m : List (List Nat)} {n : Nat}
    (hsq : sqMat m n)
    (hsym : ∀ a b, a < n → b < n → matGet m a b = matGet m b a) :
    ∀ x y, matGet m x y = matGet m y x := by
  obtain ⟨hl, hr⟩ := hsq
  have hrow : ∀ x, x < n → ∃ row, m[x]? = some row ∧ row.length = n := by
    intro x hx
    have hx2 : x < m.length := by omega
    exact ⟨m[x], List.getElem?_eq_getElem hx2,
      hr _ (List.getElem_mem hx2)⟩
  have hnone : ∀ x y, n ≤ x → matGet m x y = none := by
    intro x y hx
    exact matGet_none_left y (List.getElem?_eq_none (by omega))
  have hnone2 : ∀ x y, x < n → n ≤ y → matGet m x y = none := by
    intro x y hx hy
    obtain ⟨row, hrw, hrl⟩ := hrow x hx
    unfold matGet
    rw [hrw]
    show row[y]? = none
    exact List.getElem?_eq_none (by omega)
  intro x y
  rcases Nat.lt_or_ge x n with hx | hx
  · rcases Nat.lt_or_ge y n with hy | hy
    · exact hsym x y hx hy
    · rw [hnone2 x y hx hy, hnone y x hy]
  · rcases Nat.lt_or_ge y n with hy | hy
    · rw [hnone x y hx, hnone2 y x hy hx]
    · rw [hnone x y hx, hnone y x hy]

/-- `insert_edge` preserves the matrix invariant and the vertex count. -/
theorem GInv_insertEdge (hN : Nat → Nat) {g g2 : AdjMatGraph VL EL}
    {r : Except EnceladusError Nat} (label : EL) (a b : Nat)
    (hinv : GInv g) (hstep : gInsertEdge hN g label a b = some (r, g2)) :
    GInv g2 ∧ g2.num_vertices = g.num_vertices := by
  unfold gInsertEdge at hstep
  simp only [hmContains] at hstep
  cases hca : decide (a ∈ keysList g.vertex_labels) with
  | false =>
    rw [hca] at hstep
    simp only [Bool.not_false, if_pos] at hstep
    obtain ⟨-, rfl⟩ := Prod.mk.injEq .. ▸ Option.some.inj hstep
    exact ⟨hinv, rfl⟩
  | true =>
    rw [hca] at hstep
    simp only [Bool.not_true, Bool.false_eq_true, if_false] at hstep
    cases hcb : decide (b ∈ keysList g.vertex_labels) with
    | false =>
      rw [hcb] at hstep
      simp only [Bool.not_false, if_pos] at hstep
      obtain ⟨-, rfl⟩ := Prod.mk.injEq .. ▸ Option.some.inj hstep
      exact ⟨hinv, rfl⟩
    | true =>
      rw [hcb] at hstep
      simp only [Bool.not_true, Bool.false_eq_true, if_false] at hstep
      cases hel : hmInsert hN g.edge_labels g.num_edges label with
      | none => simp [hel] at hstep
      | some pel =>
        obtain ⟨rel, el2⟩ := pel
        simp only [hel] at hstep
        cases rel with
        | error e =>
          simp only at hstep
          obtain ⟨-, rfl⟩ := Prod.mk.injEq .. ▸ Option.some.inj hstep
          exact ⟨hinv, rfl⟩
        | ok u =>
          simp only at hstep
          cases hep : hmInsert hN g.endpoints g.num_edges (a, b) with
          | none => simp [hep] at hstep
          | some pep =>
            obtain ⟨rep, ep2⟩ := pep
            simp only [hep] at hstep
            cases rep with
            | error e =>
              simp only at hstep
              obtain ⟨-, rfl⟩ := Prod.mk.injEq .. ▸ Option.some.inj hstep
              exact ⟨hinv, rfl⟩
            | ok u2 =>
              simp only at hstep
              cases hm1 : matModify g.adjacency_matrix a b u64AddOne with
              | none => simp [hm1] at hstep
              | some m1 =>
                simp only [hm1] at hstep
                cases hm2 : matModify m1 b a u64AddOne with
                | none => simp [hm2] at hstep
                | some m2 =>
                  simp only [hm2] at hstep
                  cases hne : u64Add g.num_edges 1 with
                  | none => simp [hne] at hstep
                  | some ne2 =>
                    simp only [hne] at hstep
                    obtain ⟨-, rfl⟩ := Prod.mk.injEq .. ▸ Option.some.inj hstep
                    obtain ⟨hsq, hsym⟩ := hinv
                    obtain ⟨hl1, hp1⟩ := matModify_shape hm1
                    obtain ⟨hl2, hp2⟩ := matModify_shape hm2
                    have hsq1 : sqMat m1 g.num_vertices :=
                      sqMat_of_shape hsq hl1 hp1
                    have hsq2 : sqMat m2 g.num_vertices :=
                      sqMat_of_shape hsq1 hl2 hp2
                    refine ⟨⟨⟨hsq2.1, hsq2.2⟩, ?_⟩, rfl⟩
                    intro x y hx hy
                    exact matModify_pair_symm
                      (matGet_symm_all hsq hsym) hm1 hm2 x y

/-- `remove_edge` preserves the matrix invariant and the vertex count. -/
theorem GInv_removeEdge (hN : Nat → Nat) {g g2 : AdjMatGraph VL EL}
    {r : Except EnceladusError Unit} (e : Nat)
    (hinv : GInv g) (hstep : gRemoveEdge hN g e = some (r, g2)) :
    GInv g2 ∧ g2.num_vertices = g.num_vertices := by
  unfold gRemoveEdge at hstep
  simp only [hmContains] at hstep
  cases hce : decide (e ∈ keysList g.edge_labels) with
  | false =>
    rw [hce] at hstep
    simp only [Bool.not_false, if_pos] at hstep
    obtain ⟨-, rfl⟩ := Prod.mk.injEq .. ▸ Option.some.inj hstep
    exact ⟨hinv, rfl⟩
  | true =>
    rw [hce] at hstep
    simp only [Bool.not_true, Bool.false_eq_true, if_false] at hstep
    cases hel : hmRemove hN g.edge_labels e with
    | none => simp [hel] at hstep
    | some pel =>
      obtain ⟨rel, el2⟩ := pel
      simp only [hel] at hstep
      cases rel with
      | error er2 =>
        simp only at hstep
        obtain ⟨-, rfl⟩ := Prod.mk.injEq .. ▸ Option.some.inj hstep
        exact ⟨hinv, rfl⟩
      | ok u =>
        simp only at hstep
        cases hgp : hmGet hN g.endpoints e with
        | none => simp [hgp] at hstep
        | some rgp =>
          simp only [hgp] at hstep
          cases rgp with
          | error er2 =>
            simp only at hstep
            obtain ⟨-, rfl⟩ := Prod.mk.injEq .. ▸ Option.some.inj hstep
            exact ⟨hinv, rfl⟩
          | ok ogp =>
            cases ogp with
            | none => exact absurd hstep (by simp)
            | some ab =>
              obtain ⟨a, b⟩ := ab
              simp only at hstep
              cases hep : hmRemove hN g.endpoints e with
              | none => simp [hep] at hstep
              | some pep =>
                obtain ⟨rep, ep2⟩ := pep
                simp only [hep] at hstep
                cases rep with
                | error er2 =>
                  simp only at hstep
                  obtain ⟨-, rfl⟩ := Prod.mk.injEq .. ▸ Option.some.inj hstep
                  exact ⟨hinv, rfl⟩
                | ok u2 =>
                  simp only at hstep
                  cases hm1 : matModify g.adjacency_matrix a b u64Sub1 with
                  | none => simp [hm1] at hstep
                  | some m1 =>
                    simp only [hm1] at hstep
                    cases hm2 : matModify m1 b a u64Sub1 with
                    | none => simp [hm2] at hstep
                    | some m2 =>
                      simp only [hm2] at hstep
                      cases hne : u64Sub1 g.num_edges with
                      | none => simp [hne] at hstep
                      | some ne2 =>
                        simp only [hne] at hstep
                        obtain ⟨-, rfl⟩ := Prod.mk.injEq .. ▸ Option.some.inj hstep
                        obtain ⟨hsq, hsym⟩ := hinv
                        obtain ⟨hl1, hp1⟩ := matModify_shape hm1
                        obtain ⟨hl2, hp2⟩ := matModify_shape hm2
                        have hsq1 : sqMat m1 g.num_vertices :=
                          sqMat_of_shape hsq hl1 hp1
                        have hsq2 : sqMat m2 g.num_vertices :=
                          sqMat_of_shape hsq1 hl2 hp2
                        refine ⟨⟨⟨hsq2.1, hsq2.2⟩, ?_⟩, rfl⟩
                        intro x y hx hy
                        exact matModify_pair_symm
                          (matGet_symm_all hsq hsym) hm1 hm2 x y

theorem pushColLoop_spec :
    ∀ (r i : Nat) (m m2 : List (List Nat)), pushColLoop r i m = some m2 →
    m2.length = m.length ∧
    (∀ j, j < i → m2[j]? = m[j]?) ∧
    (∀ j, i ≤ j → j < i + r →
      ∃ row, m[j]? = some row ∧ m2[j]? = some (row ++ [0])) ∧
    (∀ j, i + r ≤ j → m2[j]? = m[j]?) := by
  intro r
  induction r with
  | zero =>
    intro i m m2 hloop
    have : m = m2 := Option.some.inj hloop
    subst this
    exact ⟨rfl, fun _ _ => rfl, fun j h1 h2 => by omega, fun _ _ => rfl⟩
  | succ r ih =>
    intro i m m2 hloop
    rw [pushColLoop] at hloop
    cases hrow : m[i]? with
    | none => simp [hrow] at hloop
    | some row =>
      simp only [hrow] at hloop
      obtain ⟨hlen, hlt, hmid, hge⟩ := ih (i + 1) _ _ hloop
      have hi : i < m.length := by
        by_contra hc
        rw [List.getElem?_eq_none (by omega)] at hrow
        exact Option.noConfusion hrow
      refine ⟨by simpa using hlen, ?_, ?_, ?_⟩
      · intro j hj
        rw [hlt j (by omega), List.getElem?_set_ne (by omega)]
      · intro j hj1 hj2
        by_cases hji : j = i
        · subst hji
          refine ⟨row, hrow, ?_⟩
          rw [hlt j (by omega), List.getElem?_set_self hi]
        · obtain ⟨row2, hr2, hr3⟩ := hmid j (by omega) (by omega)
          rw [List.getElem?_set_ne (by omega)] at hr2
          exact ⟨row2, hr2, hr3⟩
      · intro j hj
        rw [hge j (by omega), List.getElem?_set_ne (by omega)]

/-- `insert_vertex` preserves the matrix invariant; the vertex count
grows by one. -/
theorem GInv_insertVertex (hN : Nat → Nat) {g g2 : AdjMatGraph VL EL}
    {r : Except EnceladusError Nat} (label : VL)
    (hinv : GInv g) (hstep : gInsertVertex hN g label = some (r, g2)) :
    GInv g2 ∧ g2.num_vertices = g.num_vertices + 1 := by
  obtain ⟨⟨hml, hmr⟩, hsym⟩ := hinv
  unfold gInsertVertex at hstep
  cases hvl : hmInsert hN g.vertex_labels g.num_vertices label with
  | none => simp [hvl] at hstep
  | some pvl =>
    obtain ⟨rvl, vl2⟩ := pvl
    simp only [hvl] at hstep
    cases rvl with
    | error e => simp at hstep
    | ok u =>
      simp only at hstep
      by_cases hn0 : g.num_vertices = 0
      · rw [if_pos hn0] at hstep
        cases hadd : u64Add g.num_vertices 1 with
        | none => simp [hadd] at hstep
        | some n2 =>
          simp only [hadd] at hstep
          obtain ⟨-, rfl⟩ := Prod.mk.injEq .. ▸ Option.some.inj hstep
          have hn2 : n2 = g.num_vertices + 1 := u64Add_some hadd
          have hmnil : g.adjacency_matrix = [] :=
            List.length_eq_zero.1 (by omega)
          subst hn2
          refine ⟨⟨⟨?_, ?_⟩, ?_⟩, rfl⟩
          · show (g.adjacency_matrix ++ [[0]]).length = g.num_vertices + 1
            rw [hmnil, hn0]
            rfl
          · intro row hrow
            show row.length = g.num_vertices + 1
            rw [hmnil] at hrow
            simp at hrow
            rw [hrow, hn0]
            rfl
          · intro x y hx hy
            show matGet (g.adjacency_matrix ++ [[0]]) x y = _
            rw [hmnil] at hx hy ⊢
            rw [hn0] at hx hy
            interval_cases x <;> interval_cases y <;> rfl
      · rw [if_neg hn0] at hstep
        cases hcol : pushColLoop g.num_vertices 0 g.adjacency_matrix with
        | none => simp [hcol] at hstep
        | some mc =>
          simp only [hcol] at hstep
          cases hadd : u64Add g.num_vertices 1 with
          | none => simp [hadd] at hstep
          | some n2 =>
            simp only [hadd] at hstep
            obtain ⟨-, rfl⟩ := Prod.mk.injEq .. ▸ Option.some.inj hstep
            have hn2 : n2 = g.num_vertices + 1 := u64Add_some hadd
            subst hn2
            obtain ⟨hclen, _, hcmid, _⟩ := pushColLoop_spec _ _ _ _ hcol
            set n := g.num_vertices with hn
            set M := mc ++ [List.replicate (n + 1) 0] with hM
            have hrowM : ∀ j, j < n →
                ∃ row, g.adjacency_matrix[j]? = some row ∧
                  M[j]? = some (row ++ [0]) ∧ row.length = n := by
              intro j hj
              obtain ⟨row, h1, h2⟩ := hcmid j (by omega) (by omega)
              refine ⟨row, h1, ?_, ?_⟩
              · rw [hM, List.getElem?_append_left (by omega), h2]
              · exact hmr row (List.mem_iff_getElem?.2 ⟨j, h1⟩)
            have hlastM : M[n]? = some (List.replicate (n + 1) 0) := by
              rw [hM, List.getElem?_append_right (by omega)]
              have : n - mc.length = 0 := by omega
              rw [this]
              rfl
            refine ⟨⟨⟨?_, ?_⟩, ?_⟩, rfl⟩
            · show M.length = n + 1
              rw [hM]
              simp
              omega
            · intro row hrow
              show row.length = n + 1
              obtain ⟨j, hj⟩ := List.mem_iff_getElem?.1 hrow
              have hjlt : j < n + 1 := by
                by_contra hc
                rw [List.getElem?_eq_none (by rw [hM]; simp; omega)] at hj
                exact Option.noConfusion hj
              rcases Nat.lt_or_ge j n with hjn | hjn
              · obtain ⟨row2, _, h2, h3⟩ := hrowM j hjn
                rw [h2] at hj
                have : row = row2 ++ [0] := Option.some.inj hj.symm
                rw [this]
                simp
                omega
              · have hjeq : j = n := by omega
                subst hjeq
                rw [hlastM] at hj
                have : row = List.replicate (n + 1) 0 := Option.some.inj hj.symm
                rw [this]
                simp
            · intro x y hx hy
              show matGet M x y = matGet M y x
              have hcell : ∀ p q, p < n + 1 → q < n + 1 →
                  matGet M p q =
                    (if p < n then
                      (if q < n then matGet g.adjacency_matrix p q
                        else some 0)
                      else some 0) := by
                intro p q hp hq
                rcases Nat.lt_or_ge p n with hpn | hpn
                · obtain ⟨row, h1, h2, h3⟩ := hrowM p hpn
                  rw [matGet_eq_bind, h2]
                  rcases Nat.lt_or_ge q n with hqn | hqn
                  · rw [if_pos hpn, if_pos hqn, matGet_eq_bind, h1]
                    show (row ++ [0])[q]? = row[q]?
                    rw [List.getElem?_append_left (by omega)]
                  · rw [if_pos hpn, if_neg (by omega)]
                    show (row ++ [0])[q]? = some 0
                    rw [List.getElem?_append_right (by omega)]
                    have hq0 : q - row.length = 0 := by omega
                    rw [hq0]
                    rfl
                · have hpeq : p = n := by omega
                  subst hpeq
                  rw [if_neg (by omega), matGet_eq_bind, hlastM]
                  show (List.replicate (n + 1) 0)[q]? = some 0
                  rw [List.getElem?_eq_getElem (by simpa using hq)]
                  simp [List.getElem_replicate]
              rw [hcell x y hx hy, hcell y x hy hx]
              rcases Nat.lt_or_ge x n with hxn | hxn
              · rcases Nat.lt_or_ge y n with hyn | hyn
                · rw [if_pos hxn, if_pos hyn, if_pos hyn, if_pos hxn]
                  exact hsym x y hxn hyn
                · rw [if_pos hxn, if_neg (by omega), if_neg (by omega)]
              · rcases Nat.lt_or_ge y n with hyn | hyn
                · rw [if_neg (by omega), if_pos hyn, if_neg (by omega)]
                · rw [if_neg (by omega), if_neg (by omega)]

theorem removeColLoop_spec (v : Nat) :
    ∀ (r i : Nat) (m m2 : List (List Nat)),
    removeColLoop v r i m = some m2 →
    m2.length = m.length ∧
    (∀ j, j < i → m2[j]? = m[j]?) ∧
    (∀ j, i ≤ j → j < i + r → ∃ row, m[j]? = some row ∧ v < row.length ∧
      m2[j]? = some (row.eraseIdx v)) ∧
    (∀ j, i + r ≤ j → m2[j]? = m[j]?) := by
  intro r
  induction r with
  | zero =>
    intro i m m2 hloop
    have : m = m2 := Option.some.inj hloop
    subst this
    exact ⟨rfl, fun _ _ => rfl, fun j h1 h2 => by omega, fun _ _ => rfl⟩
  | succ r ih =>
    intro i m m2 hloop
    rw [removeColLoop] at hloop
    cases hrow : m[i]? with
    | none => simp [hrow] at hloop
    | some row =>
      simp only [hrow] at hloop
      by_cases hv : v < row.length
      · rw [if_pos hv] at hloop
        obtain ⟨hlen, hlt, hmid, hge⟩ := ih (i + 1) _ _ hloop
        have hi : i < m.length := by
          by_contra hc
          rw [List.getElem?_eq_none (by omega)] at hrow
          exact Option.noConfusion hrow
        refine ⟨by simpa using hlen, ?_, ?_, ?_⟩
        · intro j hj
          rw [hlt j (by omega), List.getElem?_set_ne (by omega)]
        · intro j hj1 hj2
          by_cases hji : j = i
          · subst hji
            refine ⟨row, hrow, hv, ?_⟩
            rw [hlt j (by omega), List.getElem?_set_self hi]
          · obtain ⟨row2, hr2, hr3, hr4⟩ := hmid j (by omega) (by omega)
            rw [List.getElem?_set_ne (by omega)] at hr2
            exact ⟨row2, hr2, hr3, hr4⟩
        · intro j hj
          rw [hge j (by omega), List.getElem?_set_ne (by omega)]
      · rw [if_neg hv] at hloop
        exact absurd hloop (by simp)

/-- The edge-pruning loop preserves the invariant and the vertex count. -/
theorem GInv_removeEdgesLoop (hN : Nat → Nat) :
    ∀ (es : List Nat) (g g2 : AdjMatGraph VL EL)
      (r : Except EnceladusError Unit),
    GInv g → removeEdgesLoop hN g es = some (r, g2) →
    GInv g2 ∧ g2.num_vertices = g.num_vertices := by
  intro es
  induction es with
  | nil =>
    intro g g2 r hinv hstep
    unfold removeEdgesLoop at hstep
    obtain ⟨-, rfl⟩ := Prod.mk.injEq .. ▸ Option.some.inj hstep
    exact ⟨hinv, rfl⟩
  | cons e es ih =>
    intro g g2 r hinv hstep
    unfold removeEdgesLoop at hstep
    cases hre : gRemoveEdge hN g e with
    | none => simp [hre] at hstep
    | some pre =>
      obtain ⟨rre, g3⟩ := pre
      simp only [hre] at hstep
      cases rre with
      | error er =>
        obtain ⟨-, rfl⟩ := Prod.mk.injEq .. ▸ Option.some.inj hstep
        exact GInv_removeEdge hN e hinv hre
      | ok u =>
        obtain ⟨hinv3, hn3⟩ := GInv_removeEdge hN e hinv hre
        obtain ⟨hinv2, hn2⟩ := ih g3 g2 r hinv3 hstep
        exact ⟨hinv2, by omega⟩

/-- `remove_vertex` preserves the matrix invariant. -/
theorem GInv_removeVertex (hN : Nat → Nat) {g g2 : AdjMatGraph VL EL}
    {r : Except EnceladusError Unit} (v : Nat)
    (hinv : GInv g) (hstep : gRemoveVertex hN g v = some (r, g2)) :
    GInv g2 := by
  unfold gRemoveVertex at hstep
  simp only [hmContains] at hstep
  cases hcv : decide (v ∈ keysList g.vertex_labels) with
  | false =>
    rw [hcv] at hstep
    simp only [Bool.not_false, if_pos] at hstep
    obtain ⟨-, rfl⟩ := Prod.mk.injEq .. ▸ Option.some.inj hstep
    exact hinv
  | true =>
    rw [hcv] at hstep
    simp only [Bool.not_true, Bool.false_eq_true, if_false] at hstep
    by_cases hn1 : g.num_vertices = 1
    · rw [if_pos hn1] at hstep
      obtain ⟨-, rfl⟩ := Prod.mk.injEq .. ▸ Option.some.inj hstep
      exact ⟨⟨rfl, by simp⟩, fun a b ha hb => absurd (show a < 0 from ha) (by omega)⟩
    · rw [if_neg hn1] at hstep
      cases hinc : incLoop hN g.endpoints v g.num_edges 0 with
      | none => simp [hinc] at hstep
      | some rinc =>
        simp only [hinc] at hstep
        cases rinc with
        | error er =>
          simp only at hstep
          obtain ⟨-, rfl⟩ := Prod.mk.injEq .. ▸ Option.some.inj hstep
          exact hinv
        | ok incident =>
          simp only at hstep
          cases hloop : removeEdgesLoop hN g incident with
          | none => simp [hloop] at hstep
          | some ploop =>
            obtain ⟨rloop, g3⟩ := ploop
            simp only [hloop] at hstep
            obtain ⟨hinv3, hn3⟩ :=
              GInv_removeEdgesLoop hN incident g g3 rloop hinv hloop
            cases rloop with
            | error er =>
              simp only at hstep
              obtain ⟨-, rfl⟩ := Prod.mk.injEq .. ▸ Option.some.inj hstep
              exact hinv3
            | ok u =>
              simp only at hstep
              cases hrm : hmRemove hN g3.vertex_labels v with
              | none => simp [hrm] at hstep
              | some prm =>
                obtain ⟨rrm, vl2⟩ := prm
                simp only [hrm] at hstep
                cases rrm with
                | error er =>
                  simp only at hstep
                  obtain ⟨-, rfl⟩ := Prod.mk.injEq .. ▸ Option.some.inj hstep
                  exact hinv3
                | ok u2 =>
                  simp only at hstep
                  by_cases hvlt : v < g3.adjacency_matrix.length
                  · rw [if_pos hvlt] at hstep
                    cases hcol : removeColLoop v (g3.num_vertices - 1) 0
                        (g3.adjacency_matrix.eraseIdx v) with
                    | none => simp [hcol] at hstep
                    | some m2 =>
                      simp only [hcol] at hstep
                      cases hsub : u64Sub1 g3.num_vertices with
                      | none => simp [hsub] at hstep
                      | some n2 =>
                        simp only [hsub] at hstep
                        obtain ⟨-, rfl⟩ :=
                          Prod.mk.injEq .. ▸ Option.some.inj hstep
                        obtain ⟨hn0, hn2⟩ := u64Sub1_some hsub
                        obtain ⟨⟨hml, hmr⟩, hsym⟩ := hinv3
                        obtain ⟨hclen, _, hmid, _⟩ :=
                          removeColLoop_spec v _ _ _ _ hcol
                        set n := g3.num_vertices with hn
                        have hvn : v < n := by omega
                        have herlen :
                            (g3.adjacency_matrix.eraseIdx v).length = n - 1 := by
                          rw [List.length_eraseIdx_of_lt (by omega)]
                          omega
                        have hm2len : m2.length = n - 1 := by omega
                        have hM2get : ∀ x, x < n - 1 →
                            ∃ row, g3.adjacency_matrix[if x < v then x else x + 1]?
                                = some row ∧ v < row.length ∧
                              m2[x]? = some (row.eraseIdx v) := by
                          intro x hx
                          obtain ⟨row, hr1, hr2, hr3⟩ :=
                            hmid x (by omega) (by omega)
                          have h4 := List.getElem?_eraseIdx g3.adjacency_matrix v x
                          rw [hr1] at h4
                          refine ⟨row, ?_, hr2, hr3⟩
                          by_cases hxv : x < v
                          · rw [if_pos hxv]
                            rw [if_pos hxv] at h4
                            exact h4.symm
                          · rw [if_neg hxv]
                            rw [if_neg hxv] at h4
                            exact h4.symm
                        refine ⟨⟨?_, ?_⟩, ?_⟩
                        · show m2.length = n2
                          omega
                        · intro row hrow
                          show row.length = n2
                          have hrow2 : row ∈ m2 := hrow
                          obtain ⟨j, hj⟩ := List.mem_iff_getElem?.1 hrow2
                          have hjlt : j < n - 1 := by
                            by_contra hc
                            rw [List.getElem?_eq_none (by omega)] at hj
                            exact Option.noConfusion hj
                          obtain ⟨row2, h4, h5, h6⟩ := hM2get j hjlt
                          rw [h6] at hj
                          have hre : row = row2.eraseIdx v :=
                            Option.some.inj hj.symm
                          have hrl : row2.length = n :=
                            hmr row2 (List.mem_iff_getElem?.2 ⟨_, h4⟩)
                          rw [hre, List.length_eraseIdx_of_lt (by omega)]
                          omega
                        · intro x y hx hy
                          show matGet m2 x y = matGet m2 y x
                          have hx3 : x < n2 := hx
                          have hy3 : y < n2 := hy
                          have hx2 : x < n - 1 := by omega
                          have hy2 : y < n - 1 := by omega
                          have hcell : ∀ p q, p < n - 1 → q < n - 1 →
                              matGet m2 p q = matGet g3.adjacency_matrix
                                (if p < v then p else p + 1)
                                (if q < v then q else q + 1) := by
                            intro p q hp hq
                            obtain ⟨row, h4, h5, h6⟩ := hM2get p hp
                            rw [matGet_eq_bind, h6, matGet_eq_bind, h4]
                            show (row.eraseIdx v)[q]? = _
                            rw [List.getElem?_eraseIdx]
                            by_cases hqv : q < v
                            · rw [if_pos hqv, if_pos hqv]
                              rfl
                            · rw [if_neg hqv, if_neg hqv]
                              rfl
                          rw [hcell x y hx2 hy2, hcell y x hy2 hx2]
                          exact matGet_symm_all ⟨hml, hmr⟩ hsym _ _
                  · rw [if_neg hvlt] at hstep
                    exact absurd hstep (by simp)

/-- `clear` resets to the empty matrix, which satisfies the invariant. -/
theorem GInv_clear {g g2 : AdjMatGraph VL EL}
    {r : Except EnceladusError Unit} (hstep : gClear g = some (r, g2)) :
    GInv g2 := by
  unfold gClear at hstep
  simp only [hmClear] at hstep
  obtain ⟨-, rfl⟩ := Prod.mk.injEq .. ▸ Option.some.inj hstep
  exact ⟨⟨rfl, by simp⟩, fun a b ha hb => absurd (show a < 0 from ha) (by omega)⟩

/-- C6: every graph reachable from `new()` by `insert_vertex`,
`remove_vertex`, `insert_edge`, `remove_edge` and `clear` has a square
adjacency matrix of dimension `num_vertices` that is symmetric:
`adjacency_matrix[a][b] = adjacency_matrix[b][a]` for all indices below
the dimension. -/
theorem c6_matrix_square_symmetric (hN : Nat → Nat)
    {g : AdjMatGraph VL EL} (hreach : GReach hN g) :
    MatSquare g ∧ MatSymm g := by
  induction hreach with
  | new =>
    exact ⟨⟨rfl, fun row hrow => absurd hrow (by simp [gNew])⟩,
      fun a b ha hb => absurd (show a < 0 from ha) (by omega)⟩
  | insert_vertex label hr hstep ih =>
    exact (GInv_insertVertex hN label ih hstep).1
  | remove_vertex v hr hstep ih =>
    exact GInv_removeVertex hN v ih hstep
  | insert_edge label a b hr hstep ih =>
    exact (GInv_insertEdge hN label a b ih hstep).1
  | remove_edge e hr hstep ih =>
    exact (GInv_removeEdge hN e ih hstep).1
  | clear hr hstep ih =>
    exact GInv_clear hstep

/-- Witness for C6 at a concrete reachable graph: one `insert_vertex`
from `new()`. -/
theorem c6_matrix_square_symmetric_witness :
    MatSquare cg1 ∧ MatSymm cg1 :=
  c6_matrix_square_symmetric hid
    (GReach.insert_vertex 7 GReach.new (by rfl))

/-! ## C8 -/

/-- The accumulator of the degree loop never exceeds the resulting sum. -/
theorem degLoop_acc_le {m : List (List Nat)} {v : Nat} :
    ∀ (r i acc s : Nat), degLoop m v r i acc = some s → acc ≤ s := by
  intro r
  induction r with
  | zero => intro i acc s h; exact le_of_eq (Option.some.inj h)
  | succ r ih =>
    intro i acc s h
    unfold degLoop at h
    cases hc : matGet m v i with
    | none => rw [hc] at h; exact absurd h (by simp)
    | some c =>
      simp only [hc] at h
      cases hadd : u64Add acc c with
      | none => rw [hadd] at h; exact absurd h (by simp)
      | some acc2 =>
        simp only [hadd] at h
        have h3 := u64Add_some hadd
        have h2 := ih (i + 1) acc2 s h
        omega

/-- Every cell visited by a successful degree loop is at most the sum. -/
theorem degLoop_cell_le {m : List (List Nat)} {v : Nat} :
    ∀ (r i acc s : Nat), degLoop m v r i acc = some s →
      ∀ j c, i ≤ j → j < i + r → matGet m v j = some c → c ≤ s := by
  intro r
  induction r with
  | zero => intro i acc s _ j c h1 h2 _; omega
  | succ r ih =>
    intro i acc s h j c h1 h2 hcell
    unfold degLoop at h
    cases hc : matGet m v i with
    | none => rw [hc] at h; exact absurd h (by simp)
    | some ci =>
      simp only [hc] at h
      cases hadd : u64Add acc ci with
      | none => rw [hadd] at h; exact absurd h (by simp)
      | some acc2 =>
        simp only [hadd] at h
        by_cases hij : j = i
        · subst hij
          rw [hcell] at hc
          have h3 := u64Add_some hadd
          have h4 := degLoop_acc_le r (j + 1) acc2 s h
          have h5 : c = ci := Option.some.inj hc
          omega
        · exact ih (i + 1) acc2 s h j c (by omega) (by omega) hcell

/-- The degree loop only reads the cells of the scanned column range. -/
theorem degLoop_congr {m m2 : List (List Nat)} {v : Nat} :
    ∀ (r i acc : Nat),
      (∀ j, i ≤ j → j < i + r → matGet m2 v j = matGet m v j) →
      degLoop m2 v r i acc = degLoop m v r i acc := by
  intro r
  induction r with
  | zero => intro i acc _; rfl
  | succ r ih =>
    intro i acc hcells
    unfold degLoop
    rw [hcells i (by omega) (by omega)]
    cases hc : matGet m v i with
    | none => simp only [hc]
    | some ci =>
      simp only [hc]
      cases hadd : u64Add acc ci with
      | none => simp only [hadd]
      | some acc2 =>
        simp only [hadd]
        exact ih (i + 1) acc2 (fun j h1 h2 => hcells j (by omega) (by omega))

/-- Raising the accumulator of a successful degree loop by two raises the
sum by two (as long as the raised sum still fits). -/
theorem degLoop_shift {m : List (List Nat)} {v : Nat} :
    ∀ (r i acc s : Nat), degLoop m v r i acc = some s → s + 2 < U64MOD →
      degLoop m v r i (acc + 2) = some (s + 2) := by
  intro r
  induction r with
  | zero =>
    intro i acc s h _
    rw [Option.some.inj h]
    rfl
  | succ r ih =>
    intro i acc s h hs
    unfold degLoop at h ⊢
    cases hc : matGet m v i with
    | none => rw [hc] at h; exact absurd h (by simp)
    | some ci =>
      simp only [hc] at h ⊢
      cases hadd : u64Add acc ci with
      | none => rw [hadd] at h; exact absurd h (by simp)
      | some acc2 =>
        simp only [hadd] at h
        have h3 := u64Add_some hadd
        have h4 := degLoop_acc_le r (i + 1) acc2 s h
        have hadd2 : u64Add (acc + 2) ci = some (acc2 + 2) := by
          unfold u64Add
          rw [if_pos (by omega)]
          congr 1
          omega
        simp only [hadd2]
        exact ih (i + 1) acc2 s h hs

/-- Bumping the diagonal cell `(v, v)` by two while keeping every other
cell of row `v` bumps a successful degree sum of `v` by two. -/
theorem degLoop_bump {m m2 : List (List Nat)} {v c : Nat}
    (hother : ∀ j, j ≠ v → matGet m2 v j = matGet m v j)
    (hvv : matGet m v v = some c)
    (hvv2 : matGet m2 v v = some (c + 2)) :
    ∀ (r i acc s : Nat), i ≤ v → v < i + r →
      degLoop m v r i acc = some s → s + 2 < U64MOD →
      degLoop m2 v r i acc = some (s + 2) := by
  intro r
  induction r with
  | zero => intro i acc s h1 h2 _ _; omega
  | succ r ih =>
    intro i acc s h1 h2 h hs
    unfold degLoop at h ⊢
    by_cases hiv : i = v
    · subst hiv
      simp only [hvv] at h
      simp only [hvv2]
      cases hadd : u64Add acc c with
      | none => rw [hadd] at h; exact absurd h (by simp)
      | some acc2 =>
        simp only [hadd] at h
        have h3 := u64Add_some hadd
        have h4 := degLoop_acc_le r (i + 1) acc2 s h
        have hadd2 : u64Add acc (c + 2) = some (acc2 + 2) := by
          unfold u64Add
          rw [if_pos (by omega)]
          congr 1
          omega
        simp only [hadd2]
        rw [degLoop_congr r (i + 1) (acc2 + 2)
          (fun j hj _ => hother j (by omega))]
        exact degLoop_shift r (i + 1) acc2 s h hs
    · rw [hother i hiv]
      cases hc : matGet m v i with
      | none => rw [hc] at h; exact absurd h (by simp)
      | some ci =>
        simp only [hc] at h ⊢
        cases hadd : u64Add acc ci with
        | none => rw [hadd] at h; exact absurd h (by simp)
        | some acc2 =>
          simp only [hadd] at h ⊢
          exact ih (i + 1) acc2 s (by omega) (by omega) h hs

/-- A cell mutation succeeds as soon as the cell reads back and the
checked arithmetic fits. -/
theorem matModify_ok {m : List (List Nat)} {a b c c2 : Nat}
    {f : Nat → Option Nat} (h : matGet m a b = some c) (hf : f c = some c2) :
    ∃ m2, matModify m a b f = some m2 := by
  unfold matGet at h
  cases hrow : m[a]? with
  | none => rw [hrow] at h; exact absurd h (by simp)
  | some row =>
    simp only [hrow] at h
    refine ⟨m.set a (row.set b c2), ?_⟩
    unfold matModify
    simp only [hrow, h, hf]

/-- C8: on a present vertex `v` of a graph whose self-loop insertion can
complete (the two backing hash-map inserts succeed and the counters fit in
`u64`), `insert_edge(label, v, v)` succeeds with the next edge id, adds
`2` to the single matrix cell `[v][v]`, touches no other cell, and raises
`degree(v)` from `d` to `d + 2`. -/
theorem c8_self_loop_increments_cell_twice_degree_plus_two
    {VL EL : Type} [DecidableEq VL] [DecidableEq EL]
    (hN : Nat → Nat) (g : AdjMatGraph VL EL) (label : EL) (v : Nat)
    (el2 : HashMap Nat EL) (ep2 : HashMap Nat (Nat × Nat)) (c d : Nat)
    (hca : hmContains g.vertex_labels v = .ok true)
    (hv : v < g.num_vertices)
    (hel : hmInsert hN g.edge_labels g.num_edges label = some (.ok (), el2))
    (hep : hmInsert hN g.endpoints g.num_edges (v, v) = some (.ok (), ep2))
    (hcell : matGet g.adjacency_matrix v v = some c)
    (hdeg : degLoop g.adjacency_matrix v g.num_vertices 0 0 = some d)
    (hd2 : d + 2 < U64MOD)
    (hne : g.num_edges + 1 < U64MOD) :
    ∃ g2 : AdjMatGraph VL EL,
      gInsertEdge hN g label v v = some (.ok g.num_edges, g2) ∧
      matGet g2.adjacency_matrix v v = some (c + 2) ∧
      (∀ x y, ¬(x = v ∧ y = v) →
        matGet g2.adjacency_matrix x y = matGet g.adjacency_matrix x y) ∧
      gDegree g2 v = some (.ok (d + 2)) := by
  have hcd : c ≤ d :=
    degLoop_cell_le g.num_vertices 0 0 d hdeg v c (by omega) (by omega) hcell
  have hf1 : u64AddOne c = some (c + 1) := by
    unfold u64AddOne u64Add
    rw [if_pos (by omega)]
  obtain ⟨m1, hm1⟩ := matModify_ok hcell hf1
  obtain ⟨⟨c', c2', hc', hfc', hc2'⟩, hother1⟩ := matGet_matModify hm1
  have hcc : c' = c := Option.some.inj (hc'.symm.trans hcell)
  have hm1vv : matGet m1 v v = some (c + 1) := by
    rw [hcc, hf1] at hfc'
    rw [hc2', Option.some.inj hfc']
  have hf2 : u64AddOne (c + 1) = some (c + 2) := by
    unfold u64AddOne u64Add
    rw [if_pos (by omega)]
  obtain ⟨m2, hm2⟩ := matModify_ok hm1vv hf2
  obtain ⟨⟨e', e2', he', hfe', he2'⟩, hother2⟩ := matGet_matModify hm2
  have hee : e' = c + 1 := Option.some.inj (he'.symm.trans hm1vv)
  have hm2vv : matGet m2 v v = some (c + 2) := by
    rw [hee, hf2] at hfe'
    rw [he2', Option.some.inj hfe']
  have hcells_other : ∀ x y, ¬(x = v ∧ y = v) →
      matGet m2 x y = matGet g.adjacency_matrix x y :=
    fun x y h3 => (hother2 x y h3).trans (hother1 x y h3)
  have hadd : u64Add g.num_edges 1 = some (g.num_edges + 1) := by
    unfold u64Add
    rw [if_pos hne]
  refine ⟨{ g with
      num_edges := g.num_edges + 1
      adjacency_matrix := m2
      edge_labels := el2
      endpoints := ep2 }, ?_, ?_, ?_, ?_⟩
  · unfold gInsertEdge
    simp only [hca, hel, hep, hm1, hm2, hadd, Bool.not_true, Bool.false_eq_true,
      if_false]
    norm_num
  · exact hm2vv
  · exact hcells_other
  · have hca2 : hmContains
        ({ g with
          num_edges := g.num_edges + 1
          adjacency_matrix := m2
          edge_labels := el2
          endpoints := ep2 } : AdjMatGraph VL EL).vertex_labels v = .ok true := hca
    have hdl : degLoop m2 v g.num_vertices 0 0 = some (d + 2) :=
      degLoop_bump
        (fun j hj => hcells_other v j (fun hpair => hj hpair.2))
        hcell hm2vv g.num_vertices 0 0 d (by omega) (by omega) hdeg hd2
    unfold gDegree
    simp only [hca2, Bool.not_true, Bool.false_eq_true, if_false]
    have hdl2 : degLoop
        ({ g with
          num_edges := g.num_edges + 1
          adjacency_matrix := m2
          edge_labels := el2
          endpoints := ep2 } : AdjMatGraph VL EL).adjacency_matrix v
        ({ g with
          num_edges := g.num_edges + 1
          adjacency_matrix := m2
          edge_labels := el2
          endpoints := ep2 } : AdjMatGraph VL EL).num_vertices 0 0
        = some (d + 2) := hdl
    simp only [hdl2]

/-- Witness for C8: the self-loop `insert_edge(5, 0, 0)` on the
one-vertex graph `cg1`, whose sole cell goes from `0` to `2` and whose
vertex degree goes from `0` to `2`. -/
theorem c8_self_loop_witness :
    ∃ g2 : AdjMatGraph Nat Nat,
      gInsertEdge hid cg1 5 0 0 = some (.ok cg1.num_edges, g2) ∧
      matGet g2.adjacency_matrix 0 0 = some (0 + 2) ∧
      (∀ x y, ¬(x = 0 ∧ y = 0) →
        matGet g2.adjacency_matrix x y = matGet cg1.adjacency_matrix x y) ∧
      gDegree g2 0 = some (.ok (0 + 2)) :=
  c8_self_loop_increments_cell_twice_degree_plus_two hid cg1 5 0
    ⟨embB.set 0 [(0, 5)], 1⟩ ⟨embP.set 0 [(0, (0, 0))], 1⟩ 0 0
    (by rfl) (by decide) (by rfl) (by rfl) (by rfl) (by rfl)
    (by decide) (by decide)

/-! ## C9 -/

section SortProofs

variable {α : Type}

/-- Bind on `.ok` reduces (the `?` success path of the sorts). -/
theorem exBind_ok {β γ : Type} (a : β) (f : β → Except EnceladusError γ) :
    (Except.ok a >>= f : Except EnceladusError γ) = f a := rfl

/-- Bind on `pure` reduces. -/
theorem exPure_bind {β γ : Type} (a : β) (f : β → Except EnceladusError γ) :
    (pure a >>= f : Except EnceladusError γ) = f a := rfl

/-- Pulling an element out of its slot to the front is a permutation. -/
theorem cons_set_perm (z : α) :
    ∀ (t : List α) (j : Nat) (hj : j < t.length),
      (t.get ⟨j, hj⟩ :: t.set j z).Perm (z :: t) := by
  intro t
  induction t with
  | nil => intro j hj; exact absurd hj (by simp)
  | cons w s ih =>
    intro j hj
    cases j with
    | zero => exact List.Perm.swap z w s
    | succ j =>
      have hj2 : j < s.length := by simpa using hj
      exact ((List.Perm.swap w (s.get ⟨j, hj2⟩) (s.set j z)).trans
        ((ih j hj2).cons w)).trans (List.Perm.swap z w s)

/-- Exchanging two positions is a permutation. -/
theorem swap_perm :
    ∀ (l : List α) (a b : Nat) (ha : a < l.length) (hb : b < l.length),
      ((l.set a (l.get ⟨b, hb⟩)).set b (l.get ⟨a, ha⟩)).Perm l := by
  intro l
  induction l with
  | nil => intro a b ha _; exact absurd ha (by simp)
  | cons z t ih =>
    intro a b ha hb
    cases a with
    | zero =>
      cases b with
      | zero => exact List.Perm.refl (z :: t)
      | succ j =>
        have hj : j < t.length := by simpa using hb
        exact cons_set_perm z t j hj
    | succ i =>
      cases b with
      | zero =>
        have hi : i < t.length := by simpa using ha
        exact cons_set_perm z t i hi
      | succ j =>
        have hi : i < t.length := by simpa using ha
        have hj : j < t.length := by simpa using hb
        exact (ih i j hi hj).cons z

/-- `aGet` succeeds on a valid index with the indexed element. -/
theorem aGet_ok {l : List α} {pos : Nat} (h : pos < l.length) :
    ∃ x, aGet l pos = .ok x ∧ l[pos]? = some x := by
  refine ⟨l.get ⟨pos, h⟩, ?_, ?_⟩
  · unfold aGet
    rw [dif_pos h]
  · rw [List.getElem?_eq_getElem h]
    rfl

/-- `aSet` succeeds on a valid index with the overwritten list. -/
theorem aSet_eq {l : List α} {pos : Nat} (x : α) (h : pos < l.length) :
    aSet l pos x = .ok (l.set pos x) := by
  unfold aSet
  rw [if_pos h]

/-- `aSwap` on two valid indices succeeds with a permutation of the list
that exchanges the two cells and keeps every other cell. -/
theorem aSwap_spec {l : List α} {a b : Nat}
    (ha : a < l.length) (hb : b < l.length) :
    ∃ l2, aSwap l a b = .ok l2 ∧ l2.length = l.length ∧ l2.Perm l ∧
      l2[a]? = l[b]? ∧ l2[b]? = l[a]? ∧
      ∀ j, j ≠ a → j ≠ b → l2[j]? = l[j]? := by
  refine ⟨(l.set a (l.get ⟨b, hb⟩)).set b (l.get ⟨a, ha⟩), ?_, by simp,
    swap_perm l a b ha hb, ?_, ?_, ?_⟩
  · unfold aSwap
    rw [dif_pos ha, dif_pos hb]
  · by_cases hab : a = b
    · subst hab
      rw [List.getElem?_set_self (by simpa using ha),
        List.getElem?_eq_getElem ha]
      rfl
    · rw [List.getElem?_set_ne (fun hc => hab hc.symm),
        List.getElem?_set_self (by simpa using ha),
        List.getElem?_eq_getElem hb]
      rfl
  · rw [List.getElem?_set_self (by simpa using hb),
      List.getElem?_eq_getElem ha]
    rfl
  · intro j hja hjb
    rw [List.getElem?_set_ne (fun hc => hjb hc.symm),
      List.getElem?_set_ne (fun hc => hja hc.symm)]

/-- Overwriting the cell just after a prefix. -/
theorem set_last_append (A : List α) (z : α) (B : List α) (v : α) :
    (A ++ z :: B).set A.length v = A ++ v :: B := by
  induction A with
  | nil => rfl
  | cons a t ih =>
    rw [List.cons_append, List.length_cons, List.set_cons_succ, ih,
      List.cons_append]

/-- The inner bubble pass, specified against a companion relation `R`:
`Hc` and `Ht` read the two possible outcomes of a comparison as `R`-facts
and `Htr` chains them.  The pass moves an element that is `R`-below the
whole suffix into slot `i` without touching the prefix. -/
theorem bubbleInner_spec {cmp R : α → α → Bool}
    (Hc : ∀ x y, cmp x y = true → R x y = true)
    (Ht : ∀ x y, cmp x y = false → R y x = true)
    (Htr : ∀ x y z, R x y = true → R y z = true → R x z = true) :
    ∀ (k i : Nat) (l : List α), i + k < l.length →
      (∀ m xi xm, i + k < m → l[i]? = some xi → l[m]? = some xm →
        R xi xm = true) →
      ∃ l2, bubbleInner cmp i k l = .ok l2 ∧ l2.length = l.length ∧
        l2.Perm l ∧ l2.take i = l.take i ∧
        (∀ m xi xm, i < m → l2[i]? = some xi → l2[m]? = some xm →
          R xi xm = true) := by
  intro k
  induction k with
  | zero =>
    intro i l hlen hpre
    exact ⟨l, rfl, rfl, List.Perm.refl l, rfl,
      fun m xi xm hm => hpre m xi xm hm⟩
  | succ k ih =>
    intro i l hlen hpre
    obtain ⟨x, hxget, hx⟩ := aGet_ok (show i + k + 1 < l.length from hlen)
    obtain ⟨y, hyget, hy⟩ := aGet_ok (show i < l.length by omega)
    by_cases hc : cmp x y = true
    · obtain ⟨l1, hsget, hslen, hsperm, hsa, hsb, hsother⟩ :=
        aSwap_spec (show i < l.length by omega)
          (show i + k + 1 < l.length from hlen)
      have hl1i : l1[i]? = some x := by rw [hsa, hx]
      have hl1j : l1[i + k + 1]? = some y := by rw [hsb, hy]
      have hpre1 : ∀ m xi xm, i + k < m → l1[i]? = some xi →
          l1[m]? = some xm → R xi xm = true := by
        intro m xi xm hm hxi hxm
        have hxi2 : xi = x := Option.some.inj (hxi.symm.trans hl1i)
        by_cases hmj : m = i + k + 1
        · subst hmj
          have hxm2 : xm = y := Option.some.inj (hxm.symm.trans hl1j)
          rw [hxi2, hxm2]
          exact Hc x y hc
        · have hxm2 : l[m]? = some xm := by
            rw [← hsother m (by omega) hmj]
            exact hxm
          rw [hxi2]
          exact Htr x y xm (Hc x y hc) (hpre m y xm (by omega) hy hxm2)
      obtain ⟨l2, hrec, hlen2, hperm2, htake2, hmin2⟩ :=
        ih i l1 (by omega) hpre1
      refine ⟨l2, ?_, by omega, hperm2.trans hsperm, ?_, hmin2⟩
      · conv_lhs => unfold bubbleInner
        simp only [hxget, hyget, hc, hsget, exBind_ok, exPure_bind, if_true]
        exact hrec
      · rw [htake2]
        apply List.ext_getElem?
        intro p
        rw [List.getElem?_take, List.getElem?_take]
        by_cases hp : p < i
        · rw [if_pos hp, if_pos hp]
          exact hsother p (by omega) (by omega)
        · rw [if_neg hp, if_neg hp]
    · have hcf : cmp x y = false := by
        rw [← Bool.not_eq_true]
        exact hc
      have hpre1 : ∀ m xi xm, i + k < m → l[i]? = some xi →
          l[m]? = some xm → R xi xm = true := by
        intro m xi xm hm hxi hxm
        have hxi2 : xi = y := Option.some.inj (hxi.symm.trans hy)
        by_cases hmj : m = i + k + 1
        · subst hmj
          have hxm2 : xm = x := Option.some.inj (hxm.symm.trans hx)
          rw [hxi2, hxm2]
          exact Ht x y hcf
        · rw [hxi2]
          exact hpre m y xm (by omega) hy hxm
      obtain ⟨l2, hrec, hlen2, hperm2, htake2, hmin2⟩ :=
        ih i l (by omega) hpre1
      refine ⟨l2, ?_, hlen2, hperm2, htake2, hmin2⟩
      conv_lhs => unfold bubbleInner
      simp only [hxget, hyget, hcf, exBind_ok, exPure_bind,
        Bool.false_eq_true, if_false]
      exact hrec

/-- The outer bubble loop: a sorted prefix that is `R`-below the whole
unsorted suffix grows by one slot per pass. -/
theorem bubbleOuter_spec {cmp R : α → α → Bool}
    (Hc : ∀ x y, cmp x y = true → R x y = true)
    (Ht : ∀ x y, cmp x y = false → R y x = true)
    (Htr : ∀ x y z, R x y = true → R y z = true → R x z = true)
    {n : Nat} :
    ∀ (d i : Nat) (l : List α), l.length = n → i + d = n →
      (l.take i).Pairwise (fun a b => R a b = true) →
      (∀ a ∈ l.take i, ∀ m xm, i ≤ m → l[m]? = some xm →
        R a xm = true) →
      ∃ l2, bubbleOuter cmp n d i l = .ok l2 ∧ l2.Perm l ∧
        l2.Pairwise (fun a b => R a b = true) := by
  intro d
  induction d with
  | zero =>
    intro i l hlen hd hsort _
    refine ⟨l, rfl, List.Perm.refl l, ?_⟩
    rw [show i = l.length by omega, List.take_length] at hsort
    exact hsort
  | succ d ih =>
    intro i l hlen hd hsort hsplit
    have hi : i < n := by omega
    have hik : i + (n - 1 - i) < l.length := by omega
    have hpre : ∀ m xi xm, i + (n - 1 - i) < m → l[i]? = some xi →
        l[m]? = some xm → R xi xm = true := by
      intro m _ xm hm _ hxm
      have hmlt : m < l.length := by
        by_contra hcon
        rw [List.getElem?_eq_none (by omega)] at hxm
        exact Option.noConfusion hxm
      exact absurd hmlt (by omega)
    obtain ⟨l1, hinner, hlen1, hperm1, htake1, hmin1⟩ :=
      bubbleInner_spec Hc Ht Htr (n - 1 - i) i l hik hpre
    have hi1 : i < l1.length := by omega
    obtain ⟨xi, hxi⟩ : ∃ xi, l1[i]? = some xi :=
      ⟨l1.get ⟨i, hi1⟩, List.getElem?_eq_getElem hi1⟩
    have hdropperm : (l1.drop i).Perm (l.drop i) := by
      have h2 : (l1.take i ++ l1.drop i).Perm (l.take i ++ l.drop i) := by
        rw [List.take_append_drop, List.take_append_drop]
        exact hperm1
      rw [htake1] at h2
      exact (List.perm_append_left_iff (l.take i)).mp h2
    have htransfer : ∀ m xm, i ≤ m → l1[m]? = some xm →
        ∃ p, i ≤ p ∧ l[p]? = some xm := by
      intro m xm hm hxm
      have hmem : xm ∈ l1.drop i := by
        rw [List.mem_iff_getElem?]
        refine ⟨m - i, ?_⟩
        rw [List.getElem?_drop, show i + (m - i) = m by omega]
        exact hxm
      have hmem2 : xm ∈ l.drop i := hdropperm.mem_iff.mp hmem
      rw [List.mem_iff_getElem?] at hmem2
      obtain ⟨t, ht⟩ := hmem2
      rw [List.getElem?_drop] at ht
      exact ⟨i + t, by omega, ht⟩
    have hA : ∀ a ∈ l1.take i, ∀ m xm, i ≤ m → l1[m]? = some xm →
        R a xm = true := by
      intro a ha m xm hm hxm
      obtain ⟨p, hp, hxp⟩ := htransfer m xm hm hxm
      exact hsplit a (htake1 ▸ ha) p xm hp hxp
    have hsort1 : (l1.take (i + 1)).Pairwise
        (fun a b => R a b = true) := by
      rw [List.take_succ, hxi, Option.toList_some, List.pairwise_append]
      refine ⟨by rw [htake1]; exact hsort, List.pairwise_singleton _ _, ?_⟩
      intro a ha b hb
      rw [List.mem_singleton] at hb
      subst hb
      exact hA a ha i b (le_refl i) hxi
    have hsplit1 : ∀ a ∈ l1.take (i + 1), ∀ m xm, i + 1 ≤ m →
        l1[m]? = some xm → R a xm = true := by
      intro a ha m xm hm hxm
      rw [List.take_succ, hxi, Option.toList_some, List.mem_append,
        List.mem_singleton] at ha
      cases ha with
      | inl h2 => exact hA a h2 m xm (by omega) hxm
      | inr h2 =>
        subst h2
        exact hmin1 m a xm (by omega) hxi hxm
    obtain ⟨l2, houter, hperm2, hpair2⟩ :=
      ih (i + 1) l1 (by omega) (by omega) hsort1 hsplit1
    refine ⟨l2, ?_, hperm2.trans hperm1, hpair2⟩
    conv_lhs => unfold bubbleOuter
    simp only [hinner, exBind_ok]
    exact houter

/-- `bubblesort`, specified against a companion relation: success,
permutation, `R`-sortedness, and the length ≤ 1 no-op. -/
theorem bubblesort_spec {cmp R : α → α → Bool}
    (Hc : ∀ x y, cmp x y = true → R x y = true)
    (Ht : ∀ x y, cmp x y = false → R y x = true)
    (Htr : ∀ x y z, R x y = true → R y z = true → R x z = true)
    (l : List α) :
    ∃ l2, bubblesort cmp l = .ok l2 ∧ l2.Perm l ∧
      l2.Pairwise (fun a b => R a b = true) ∧
      (l.length ≤ 1 → l2 = l) := by
  by_cases hlen : l.length ≤ 1
  · refine ⟨l, ?_, List.Perm.refl l, ?_, fun _ => rfl⟩
    · unfold bubblesort
      simp only [aLength, exBind_ok]
      rw [if_pos hlen]
    · cases l with
      | nil => exact List.Pairwise.nil
      | cons a t =>
        cases t with
        | nil => exact List.pairwise_singleton _ _
        | cons b t2 => exact absurd hlen (by simp)
  · obtain ⟨l2, houter, hperm, hpair⟩ :=
      bubbleOuter_spec Hc Ht Htr l.length 0 l rfl
        (by omega) (by simp) (by simp)
    refine ⟨l2, ?_, hperm, hpair, fun h2 => absurd h2 hlen⟩
    unfold bubblesort
    simp only [aLength, exBind_ok]
    rw [if_neg hlen]
    exact houter

/-- `aGet` recovers a `getElem?` fact. -/
theorem aGet_of_getElem {l : List α} {pos : Nat} {x : α}
    (h : l[pos]? = some x) : aGet l pos = .ok x := by
  have hlen : pos < l.length := by
    by_contra hcon
    rw [List.getElem?_eq_none (by omega)] at h
    exact Option.noConfusion h
  obtain ⟨y, hyget, hy⟩ := aGet_ok hlen
  rw [hyget, Option.some.inj (hy.symm.trans h)]

/-- Extract a `Pairwise` fact between two positionally given elements. -/
theorem pairwise_extract {P : α → α → Prop} {l : List α}
    (h : l.Pairwise P) :
    ∀ (p m : Nat) (xa xb : α), p < m → l[p]? = some xa →
      l[m]? = some xb → P xa xb := by
  intro p m xa xb hpm hxa hxb
  have hml : m < l.length := by
    by_contra hcon
    rw [List.getElem?_eq_none (by omega)] at hxb
    exact Option.noConfusion hxb
  have hpl : p < l.length := by omega
  have h8 := List.pairwise_iff_getElem.mp h p m hpl hml hpm
  rw [List.getElem?_eq_getElem hpl] at hxa
  rw [List.getElem?_eq_getElem hml] at hxb
  rw [← Option.some.inj hxa, ← Option.some.inj hxb]
  exact h8

/-- The shifting loop of `insertion_sort`, specified by the single list
equation describing the partially shifted state: positions `0..q` still
hold the original prefix, positions `q+1..j` hold the original slice
`q..j-1` shifted one slot right, and the tail beyond `j` is untouched.
On exit the key sits at the found slot `q2`, is `R`-below the shifted
slice, and (unless at the front) `R`-above its new predecessor. -/
theorem insInner_spec {cmp R : α → α → Bool}
    (Hc : ∀ x y, cmp x y = true → R x y = true)
    (Ht : ∀ x y, cmp x y = false → R y x = true)
    (l0 : List α) (j : Nat) (hj : j < l0.length) (key : α) :
    ∀ (q : Nat) (l : List α), q ≤ j →
      l = l0.take (q + 1) ++ ((l0.take j).drop q ++ l0.drop (j + 1)) →
      (∀ x ∈ (l0.take j).drop q, R key x = true) →
      ∃ q2 l2, insInner cmp key q l = .ok l2 ∧ q2 ≤ j ∧
        l2 = l0.take q2 ++ key ::
          ((l0.take j).drop q2 ++ l0.drop (j + 1)) ∧
        (∀ x ∈ (l0.take j).drop q2, R key x = true) ∧
        (q2 = 0 ∨ ∃ c, l0[q2 - 1]? = some c ∧ R c key = true) := by
  have hdec : ∀ (p : Nat) (hp : p < l0.length),
      l0.take (p + 1) = l0.take p ++ [l0.get ⟨p, hp⟩] := by
    intro p hp
    rw [List.take_succ, List.getElem?_eq_getElem hp, Option.toList_some]
    rfl
  intro q
  induction q with
  | zero =>
    intro l _ hl hkeyle
    have h0l : 0 < l0.length := by omega
    have hl2 : l = l0.take 0 ++ l0.get ⟨0, h0l⟩ ::
        ((l0.take j).drop 0 ++ l0.drop (j + 1)) := by
      rw [hl, hdec 0 h0l, List.append_assoc, List.singleton_append]
    have h0len : (l0.take 0).length = 0 := by simp
    have hgen : ∀ v : α, l.set 0 v = l0.take 0 ++ v ::
        ((l0.take j).drop 0 ++ l0.drop (j + 1)) := by
      intro v
      have h2 := set_last_append (l0.take 0) (l0.get ⟨0, h0l⟩)
        ((l0.take j).drop 0 ++ l0.drop (j + 1)) v
      rw [h0len] at h2
      rw [hl2]
      exact h2
    have h0llen : 0 < l.length := by
      rw [hl2, List.length_append]
      simp
    refine ⟨0, l.set 0 key, ?_, by omega, hgen key, hkeyle, Or.inl rfl⟩
    conv_lhs => unfold insInner
    exact aSet_eq key h0llen
  | succ q ihq =>
    intro l hq1 hl hkeyle
    have hq1l : q + 1 < l0.length := by omega
    have hq0l : q < l0.length := by omega
    have hl2 : l = l0.take (q + 1) ++ l0.get ⟨q + 1, hq1l⟩ ::
        ((l0.take j).drop (q + 1) ++ l0.drop (j + 1)) := by
      rw [hl, hdec (q + 1) hq1l, List.append_assoc, List.singleton_append]
    have hq1len : (l0.take (q + 1)).length = q + 1 := by
      rw [List.length_take]
      omega
    have hgen : ∀ v : α, l.set (q + 1) v = l0.take (q + 1) ++ v ::
        ((l0.take j).drop (q + 1) ++ l0.drop (j + 1)) := by
      intro v
      have h2 := set_last_append (l0.take (q + 1)) (l0.get ⟨q + 1, hq1l⟩)
        ((l0.take j).drop (q + 1) ++ l0.drop (j + 1)) v
      rw [hq1len] at h2
      rw [hl2]
      exact h2
    have hllen : q + 1 < l.length := by
      rw [hl2, List.length_append, hq1len, List.length_cons]
      omega
    obtain ⟨c, hc⟩ : ∃ c, l0[q]? = some c :=
      ⟨l0.get ⟨q, hq0l⟩, List.getElem?_eq_getElem hq0l⟩
    have hlqc : l[q]? = some c := by
      rw [hl2, List.getElem?_append_left
        (show q < (l0.take (q + 1)).length by rw [hq1len]; omega),
        List.getElem?_take, if_pos (by omega)]
      exact hc
    have hcget : aGet l q = .ok c := aGet_of_getElem hlqc
    have hslice : (l0.take j).drop q = c :: (l0.take j).drop (q + 1) := by
      have hqj : q < (l0.take j).length := by
        rw [List.length_take]
        omega
      rw [List.drop_eq_getElem_cons hqj]
      congr 1
      rw [List.getElem_take]
      exact Option.some.inj ((List.getElem?_eq_getElem hq0l).symm.trans hc)
    by_cases hcmp : cmp key c = true
    · have hset : aSet l (q + 1) c = .ok (l.set (q + 1) c) :=
        aSet_eq c hllen
      have hinv : l.set (q + 1) c = l0.take (q + 1) ++
          ((l0.take j).drop q ++ l0.drop (j + 1)) := by
        rw [hgen c, hslice, List.cons_append]
      have hkeyle2 : ∀ x ∈ (l0.take j).drop q, R key x = true := by
        intro x hx
        rw [hslice, List.mem_cons] at hx
        cases hx with
        | inl h2 => rw [h2]; exact Hc key c hcmp
        | inr h2 => exact hkeyle x h2
      obtain ⟨q2, l2, hrec, hq2, hl2eq, hkl2, hbound⟩ :=
        ihq (l.set (q + 1) c) (by omega) hinv hkeyle2
      refine ⟨q2, l2, ?_, hq2, hl2eq, hkl2, hbound⟩
      conv_lhs => unfold insInner
      simp only [hcget, hcmp, hset, exBind_ok, if_true]
      exact hrec
    · have hcmpf : cmp key c = false := by
        rw [← Bool.not_eq_true]
        exact hcmp
      refine ⟨q + 1, l.set (q + 1) key, ?_, hq1, hgen key, hkeyle,
        Or.inr ⟨c, ?_, Ht key c hcmpf⟩⟩
      · conv_lhs => unfold insInner
        simp only [hcget, hcmpf, exBind_ok, Bool.false_eq_true, if_false]
        exact aSet_eq key hllen
      · rw [Nat.add_sub_cancel]
        exact hc

/-- The outer loop of `insertion_sort`: the sorted prefix grows by one
slot per shifted key. -/
theorem insOuter_spec {cmp R : α → α → Bool}
    (Hc : ∀ x y, cmp x y = true → R x y = true)
    (Ht : ∀ x y, cmp x y = false → R y x = true)
    (Htr : ∀ x y z, R x y = true → R y z = true → R x z = true)
    {n : Nat} :
    ∀ (d jj : Nat) (l : List α), l.length = n → jj + d = n → 1 ≤ jj →
      (l.take jj).Pairwise (fun a b => R a b = true) →
      ∃ l2, insOuter cmp n d jj l = .ok l2 ∧ l2.Perm l ∧
        l2.Pairwise (fun a b => R a b = true) := by
  intro d
  induction d with
  | zero =>
    intro jj l hlen hd _ hsort
    refine ⟨l, rfl, List.Perm.refl l, ?_⟩
    rw [show jj = l.length by omega, List.take_length] at hsort
    exact hsort
  | succ d ih =>
    intro jj l hlen hd h1 hsort
    have hjl : jj < l.length := by omega
    obtain ⟨key, hkget, hkey⟩ := aGet_ok hjl
    have hmid0 : (l.take jj).drop jj = [] :=
      List.drop_eq_nil_of_le (by rw [List.length_take]; omega)
    have hentry : l = l.take (jj + 1) ++
        ((l.take jj).drop jj ++ l.drop (jj + 1)) := by
      rw [hmid0, List.nil_append, List.take_append_drop]
    have hkeyle0 : ∀ x ∈ (l.take jj).drop jj, R key x = true := by
      rw [hmid0]
      intro x hx
      exact absurd hx (List.not_mem_nil x)
    obtain ⟨q2, l1, hinner, hq2, hl1, hkeyle, hbound⟩ :=
      insInner_spec Hc Ht l jj hjl key jj l le_rfl hentry hkeyle0
    have hAlen : (l.take q2).length = q2 := by
      rw [List.length_take]
      omega
    have hMlen : ((l.take jj).drop q2).length = jj - q2 := by
      rw [List.length_drop, List.length_take]
      omega
    have htakesplit : l.take jj = l.take q2 ++ (l.take jj).drop q2 := by
      have h2 : (l.take jj).take q2 = l.take q2 := by
        rw [List.take_take, min_eq_left hq2]
      rw [← h2, List.take_append_drop]
    have hldec : l = (l.take q2 ++ (l.take jj).drop q2) ++
        key :: l.drop (jj + 1) := by
      rw [← htakesplit]
      have h3 : l.drop jj = key :: l.drop (jj + 1) := by
        rw [List.drop_eq_getElem_cons hjl]
        congr 1
        exact Option.some.inj ((List.getElem?_eq_getElem hjl).symm.trans hkey)
      rw [← h3, List.take_append_drop]
    have hperm1 : l1.Perm l := by
      rw [hl1]
      conv_rhs => rw [hldec]
      have h4 : (l.take q2 ++ key :: ((l.take jj).drop q2 ++
          l.drop (jj + 1))).Perm (key :: (l.take q2 ++
          ((l.take jj).drop q2 ++ l.drop (jj + 1)))) := List.perm_middle
      have h5 : ((l.take q2 ++ (l.take jj).drop q2) ++
          key :: l.drop (jj + 1)).Perm (key :: ((l.take q2 ++
          (l.take jj).drop q2) ++ l.drop (jj + 1))) := List.perm_middle
      have h6 : (l.take q2 ++ (l.take jj).drop q2) ++ l.drop (jj + 1)
          = l.take q2 ++ ((l.take jj).drop q2 ++ l.drop (jj + 1)) :=
        List.append_assoc _ _ _
      rw [h6] at h5
      exact h4.trans h5.symm
    have hlen1 : l1.length = n := by
      rw [hperm1.length_eq, hlen]
    have hl1take : l1.take (jj + 1) = l.take q2 ++
        key :: (l.take jj).drop q2 := by
      rw [hl1]
      have h7 : l.take q2 ++ key :: ((l.take jj).drop q2 ++
          l.drop (jj + 1)) = (l.take q2 ++ key :: (l.take jj).drop q2)
          ++ l.drop (jj + 1) := by
        rw [List.append_assoc, List.cons_append]
      rw [h7, List.take_left' (by
        rw [List.length_append, List.length_cons, hAlen, hMlen]
        omega)]
    have hpair_l : ∀ p m xa xb, p < m → m < jj → l[p]? = some xa →
        l[m]? = some xb → R xa xb = true := by
      intro p m xa xb hpm hmjj hxa hxb
      refine pairwise_extract hsort p m xa xb hpm ?_ ?_
      · rw [List.getElem?_take, if_pos (by omega)]
        exact hxa
      · rw [List.getElem?_take, if_pos (by omega)]
        exact hxb
    have hMelem : ∀ b, b ∈ (l.take jj).drop q2 →
        ∃ m, q2 ≤ m ∧ m < jj ∧ l[m]? = some b := by
      intro b hb
      rw [List.mem_iff_getElem?] at hb
      obtain ⟨t, ht⟩ := hb
      rw [List.getElem?_drop, List.getElem?_take] at ht
      by_cases hcase : q2 + t < jj
      · rw [if_pos hcase] at ht
        exact ⟨q2 + t, by omega, hcase, ht⟩
      · rw [if_neg hcase] at ht
        exact absurd ht (by simp)
    have hAelem : ∀ a, a ∈ l.take q2 → ∃ p, p < q2 ∧ l[p]? = some a := by
      intro a ha
      rw [List.mem_iff_getElem?] at ha
      obtain ⟨p, hp⟩ := ha
      rw [List.getElem?_take] at hp
      by_cases hcase : p < q2
      · rw [if_pos hcase] at hp
        exact ⟨p, hcase, hp⟩
      · rw [if_neg hcase] at hp
        exact absurd hp (by simp)
    have hsortnew : (l.take q2 ++ key :: (l.take jj).drop q2).Pairwise
        (fun a b => R a b = true) := by
      rw [List.pairwise_append]
      refine ⟨?_, ?_, ?_⟩
      · have hsub : (l.take q2).Sublist (l.take jj) := by
          rw [htakesplit]
          exact List.sublist_append_left _ _
        exact List.Pairwise.sublist hsub hsort
      · rw [List.pairwise_cons]
        refine ⟨fun b hb => hkeyle b hb, ?_⟩
        exact List.Pairwise.sublist (List.drop_sublist q2 _) hsort
      · intro a ha b hb
        obtain ⟨p, hpq2, hpa⟩ := hAelem a ha
        rw [List.mem_cons] at hb
        cases hb with
        | inl hbkey =>
          subst hbkey
          cases hbound with
          | inl h0 => exact absurd hpq2 (by omega)
          | inr hex =>
            obtain ⟨cc, hcc, hcck⟩ := hex
            by_cases hp1 : p = q2 - 1
            · have h9 : a = cc := by
                rw [hp1] at hpa
                exact Option.some.inj (hpa.symm.trans hcc)
              rw [h9]
              exact hcck
            · exact Htr a cc b
                (hpair_l p (q2 - 1) a cc (by omega) (by omega) hpa hcc) hcck
        | inr hbM =>
          obtain ⟨m, hmq2, hmjj, hmb⟩ := hMelem b hbM
          exact hpair_l p m a b (by omega) hmjj hpa hmb
    have hsort1 : (l1.take (jj + 1)).Pairwise
        (fun a b => R a b = true) := by
      rw [hl1take]
      exact hsortnew
    obtain ⟨l2, houter, hperm2, hpair2⟩ :=
      ih (jj + 1) l1 hlen1 (by omega) (by omega) hsort1
    refine ⟨l2, ?_, hperm2.trans hperm1, hpair2⟩
    conv_lhs => unfold insOuter
    simp only [hkget, hinner, exBind_ok]
    exact houter

/-- `insertion_sort`, specified against a companion relation: success,
permutation, `R`-sortedness, and the length ≤ 1 no-op. -/
theorem insertion_sort_spec {cmp R : α → α → Bool}
    (Hc : ∀ x y, cmp x y = true → R x y = true)
    (Ht : ∀ x y, cmp x y = false → R y x = true)
    (Htr : ∀ x y z, R x y = true → R y z = true → R x z = true)
    (l : List α) :
    ∃ l2, insertion_sort cmp l = .ok l2 ∧ l2.Perm l ∧
      l2.Pairwise (fun a b => R a b = true) ∧
      (l.length ≤ 1 → l2 = l) := by
  by_cases hlen : l.length ≤ 1
  · refine ⟨l, ?_, List.Perm.refl l, ?_, fun _ => rfl⟩
    · unfold insertion_sort
      simp only [aLength, exBind_ok]
      rw [if_pos hlen]
    · cases l with
      | nil => exact List.Pairwise.nil
      | cons a t =>
        cases t with
        | nil => exact List.pairwise_singleton _ _
        | cons b t2 => exact absurd hlen (by simp)
  · have hsort0 : (l.take 1).Pairwise (fun a b => R a b = true) := by
      cases l with
      | nil => exact List.Pairwise.nil
      | cons a t => exact List.pairwise_singleton _ _
    obtain ⟨l2, houter, hperm, hpair⟩ :=
      insOuter_spec Hc Ht Htr (l.length - 1) 1 l rfl (by omega)
        (by omega) hsort0
    refine ⟨l2, ?_, hperm, hpair, fun h2 => absurd h2 hlen⟩
    unfold insertion_sort
    simp only [aLength, exBind_ok]
    rw [if_neg hlen]
    exact houter

end SortProofs

/-- C9 counterexample: with the non-strict total order `≤` on `Nat` and
the input `[1, 1]`, both sorts return `[1, 1]`, yet `cmp` DOES hold of
the later element applied to the earlier one (`decide (1 ≤ 1) = true`),
so the claim's sortedness criterion — `cmp` never holds of a later
element applied to an earlier one — fails for a non-strict total order
with equal elements.  The third and fourth conjuncts check that `≤` is a
total order (total and transitive). -/
theorem c9_counterexample_equal_elements :
    bubblesort (fun a b : Nat => decide (a ≤ b)) [1, 1] = .ok [1, 1] ∧
    insertion_sort (fun a b : Nat => decide (a ≤ b)) [1, 1] = .ok [1, 1] ∧
    (∀ x y : Nat, decide (x ≤ y) = true ∨ decide (y ≤ x) = true) ∧
    (∀ x y z : Nat, decide (x ≤ y) = true → decide (y ≤ z) = true →
      decide (x ≤ z) = true) ∧
    decide ((1 : Nat) ≤ 1) = true := by
  refine ⟨rfl, rfl, fun x y => ?_, fun x y z hxy hyz => ?_, rfl⟩
  · rcases Nat.le_total x y with h | h
    · exact Or.inl (decide_eq_true h)
    · exact Or.inr (decide_eq_true h)
  · exact decide_eq_true
      (Nat.le_trans (of_decide_eq_true hxy) (of_decide_eq_true hyz))

/-- C9 (amended): for every list, `bubblesort` and `insertion_sort`
terminate successfully, leave a list of length 0 or 1 completely
unchanged, and return a permutation of the input that is sorted — under
a NON-STRICT total order `cmp` in the sense that `cmp` holds of every
earlier element applied to every later one (the claim's own criterion
fails there for equal elements), and under a STRICT total order in the
claim's sense that `cmp` never holds of a later element applied to an
earlier one. -/
theorem c9_sorting_permutation_sortedness (α : Type)
    (cmp : α → α → Bool) (l : List α) :
    (l.length ≤ 1 →
      bubblesort cmp l = .ok l ∧ insertion_sort cmp l = .ok l) ∧
    ((∀ x y, cmp x y = true ∨ cmp y x = true) →
     (∀ x y z, cmp x y = true → cmp y z = true → cmp x z = true) →
      (∃ l2, bubblesort cmp l = .ok l2 ∧ l2.Perm l ∧
        l2.Pairwise (fun a b => cmp a b = true)) ∧
      (∃ l2, insertion_sort cmp l = .ok l2 ∧ l2.Perm l ∧
        l2.Pairwise (fun a b => cmp a b = true))) ∧
    ((∀ x y, cmp x y = true → cmp y x = false) →
     (∀ x y z, cmp x y = true → cmp y z = true → cmp x z = true) →
     (∀ x y, x ≠ y → cmp x y = true ∨ cmp y x = true) →
      (∃ l2, bubblesort cmp l = .ok l2 ∧ l2.Perm l ∧
        l2.Pairwise (fun a b => cmp b a = false)) ∧
      (∃ l2, insertion_sort cmp l = .ok l2 ∧ l2.Perm l ∧
        l2.Pairwise (fun a b => cmp b a = false))) := by
  refine ⟨?_, ?_, ?_⟩
  · intro h
    constructor
    · unfold bubblesort
      simp only [aLength, exBind_ok]
      rw [if_pos h]
    · unfold insertion_sort
      simp only [aLength, exBind_ok]
      rw [if_pos h]
  · intro htot htrans
    have Hc : ∀ x y, cmp x y = true → cmp x y = true := fun _ _ h2 => h2
    have Ht : ∀ x y, cmp x y = false → cmp y x = true := by
      intro x y h2
      refine (htot x y).resolve_left ?_
      rw [h2]
      simp
    constructor
    · obtain ⟨l2, h2, h3, h4, -⟩ := bubblesort_spec Hc Ht htrans l
      exact ⟨l2, h2, h3, h4⟩
    · obtain ⟨l2, h2, h3, h4, -⟩ := insertion_sort_spec Hc Ht htrans l
      exact ⟨l2, h2, h3, h4⟩
  · intro hasym htrans hconn
    have Hc : ∀ x y, cmp x y = true → (!cmp y x) = true := by
      intro x y h2
      rw [Bool.not_eq_true']
      exact hasym x y h2
    have Ht : ∀ x y, cmp x y = false → (!cmp x y) = true := by
      intro x y h2
      rw [Bool.not_eq_true']
      exact h2
    have Htr : ∀ x y z, (!cmp y x) = true → (!cmp z y) = true →
        (!cmp z x) = true := by
      intro x y z h2 h3
      rw [Bool.not_eq_true'] at h2 h3 ⊢
      cases hzx : cmp z x with
      | false => rfl
      | true =>
        by_cases hzy : z = y
        · rw [hzy] at hzx
          rw [h2] at hzx
          exact Bool.noConfusion hzx
        · have h5 : cmp y z = true := by
            refine (hconn z y hzy).resolve_left ?_
            rw [h3]
            simp
          have h6 := htrans y z x h5 hzx
          rw [h2] at h6
          exact Bool.noConfusion h6
    have himp : ∀ l2 : List α,
        l2.Pairwise (fun a b => (!cmp b a) = true) →
        l2.Pairwise (fun a b => cmp b a = false) := by
      intro l2 h2
      refine h2.imp ?_
      intro a b h3
      rwa [Bool.not_eq_true'] at h3
    constructor
    · obtain ⟨l2, h2, h3, h4, -⟩ := bubblesort_spec Hc Ht Htr l
      exact ⟨l2, h2, h3, himp l2 h4⟩
    · obtain ⟨l2, h2, h3, h4, -⟩ := insertion_sort_spec Hc Ht Htr l
      exact ⟨l2, h2, h3, himp l2 h4⟩

/-- Witness for C9 at concrete inputs: the non-strict order `≤` and the
strict order `<` on `Nat` over the list `[33, 12, 0, 1, 4]`, and the
singleton no-op. -/
theorem c9_sorting_witness :
    (∃ l2, bubblesort (fun a b : Nat => decide (a ≤ b))
        [33, 12, 0, 1, 4] = .ok l2 ∧ l2.Perm [33, 12, 0, 1, 4] ∧
        l2.Pairwise (fun a b => decide (a ≤ b) = true)) ∧
    (∃ l2, insertion_sort (fun a b : Nat => decide (a ≤ b))
        [33, 12, 0, 1, 4] = .ok l2 ∧ l2.Perm [33, 12, 0, 1, 4] ∧
        l2.Pairwise (fun a b => decide (a ≤ b) = true)) ∧
    (∃ l2, bubblesort (fun a b : Nat => decide (a < b))
        [33, 12, 0, 1, 4] = .ok l2 ∧ l2.Perm [33, 12, 0, 1, 4] ∧
        l2.Pairwise (fun a b => decide (b < a) = false)) ∧
    (∃ l2, insertion_sort (fun a b : Nat => decide (a < b))
        [33, 12, 0, 1, 4] = .ok l2 ∧ l2.Perm [33, 12, 0, 1, 4] ∧
        l2.Pairwise (fun a b => decide (b < a) = false)) ∧
    bubblesort (fun a b : Nat => decide (a ≤ b)) [7] = .ok [7] ∧
    insertion_sort (fun a b : Nat => decide (a ≤ b)) [7] = .ok [7] := by
  have h1 := (c9_sorting_permutation_sortedness Nat
      (fun a b => decide (a ≤ b)) [33, 12, 0, 1, 4]).2.1
    (fun x y => by
      rcases Nat.le_total x y with h | h
      · exact Or.inl (decide_eq_true h)
      · exact Or.inr (decide_eq_true h))
    (fun x y z hxy hyz => decide_eq_true
      (Nat.le_trans (of_decide_eq_true hxy) (of_decide_eq_true hyz)))
  have h2 := (c9_sorting_permutation_sortedness Nat
      (fun a b => decide (a < b)) [33, 12, 0, 1, 4]).2.2
    (fun x y hxy => decide_eq_false
      (Nat.not_lt.mpr (Nat.le_of_lt (of_decide_eq_true hxy))))
    (fun x y z hxy hyz => decide_eq_true
      (Nat.lt_trans (of_decide_eq_true hxy) (of_decide_eq_true hyz)))
    (fun x y hne => by
      rcases Nat.lt_or_ge x y with h | h
      · exact Or.inl (decide_eq_true h)
      · rcases Nat.lt_or_ge y x with h3 | h3
        · exact Or.inr (decide_eq_true h3)
        · exact absurd (Nat.le_antisymm h3 h) hne)
  have h3 := (c9_sorting_permutation_sortedness Nat
      (fun a b => decide (a ≤ b)) [7]).1 (by decide)
  exact ⟨h1.1, h1.2, h2.1, h2.2, h3.1, h3.2⟩

end Enceladus
